import Mathlib

/-!
Shallow embedding of the `continue-package-manager` dependency
resolution pipeline (`src/commands/install/TODO.ts`, final revision with
the lock-file codec) together with proofs about it.

Modelling conventions, fixed once here:

* A concrete semantic version is the `major.minor.patch` triple of
  naturals (`Version`); `semver.gt`/`semver.lt` are the strict numeric
  lexicographic order, exactly node-semver's ordering on versions
  without prerelease tags.
* A version range string is modelled by the inductive `VRange`: the
  caret ranges (`^1.2.3`) used throughout the repository, plus bare
  version strings (`1.2.3`), which node-semver reads as the exact
  range.  `semverSatisfies` implements node-semver's satisfaction
  predicate for these ranges.
* JavaScript objects/`Map`s with string keys preserve insertion order;
  they are modelled as association lists (`alookup`, `recordSet`)
  where `recordSet` updates an existing key in place and appends a
  fresh key, exactly the JS semantics.  `Set` is an insertion-ordered
  list without duplicates (`setAdd`).
* Slash-delimited path strings (`"pkg-c/node_modules"`) are modelled
  as lists of their slash-separated segments; package names contain no
  slash, so concatenation/splitting of path strings corresponds
  exactly to `++`/structural matching on segment lists.
* The registry collaborator `getPackageMetadata` is a read-only map
  from names to metadata, immutable for the run; a fetch failure is a
  missing name.  The per-run metadata cache memoizes this pure lookup,
  and is threaded through the state exactly as in the source.
* The source's unbounded recursions (`buildDependencyGraph`,
  `processDependency`) are embedded with an explicit fuel counter; the
  distinguished `outOfFuel` error marks exhaustion of fuel and never
  corresponds to a behaviour of the source, so "the recursion
  terminates" is rendered as "some fuel avoids `outOfFuel`".
-/

deriving instance DecidableEq for Except

namespace PkgMgr

/-- A concrete semantic version `major.minor.patch`. -/
structure Version where
  major : Nat
  minor : Nat
  patch : Nat
deriving DecidableEq, Repr

/-- `semver.lt`: strict numeric lexicographic comparison of versions
(not string comparison). -/
def Version.lt (a b : Version) : Bool :=
  decide (a.major < b.major ∨ (a.major = b.major ∧
    (a.minor < b.minor ∨ (a.minor = b.minor ∧ a.patch < b.patch))))

/-- `semver.gt`, as used for the selector's tie-break. -/
def Version.gtv (a b : Version) : Bool := Version.lt b a

/-- Non-strict version order (`a <= b`). -/
def Version.lev (a b : Version) : Bool := Version.lt a b || decide (a = b)

/-- A version range string.  The repository uses caret ranges; a bare
version string denotes the exact range in node-semver. -/
inductive VRange where
  | caret (base : Version)
  | exact (base : Version)
deriving DecidableEq, Repr

/-- `semver.satisfies`: node-semver satisfaction for the modelled
ranges.  `^a.b.c` with `a > 0` allows `[a.b.c, (a+1).0.0)`, with
`a = 0 < b` allows `[0.b.c, 0.(b+1).0)`, and `^0.0.c` only `0.0.c`. -/
def semverSatisfies (v : Version) (r : VRange) : Bool :=
  match r with
  | .exact base => decide (v = base)
  | .caret base =>
    if 0 < base.major then decide (v.major = base.major) && Version.lev base v
    else if 0 < base.minor then
      decide (v.major = 0) && decide (v.minor = base.minor) && Version.lev base v
    else decide (v = base)

/-- One step of `semver.maxSatisfying`: keep the largest satisfying
version seen so far. -/
def maxSatStep (r : VRange) (acc : Option Version) (v : Version) : Option Version :=
  if semverSatisfies v r then
    match acc with
    | none => some v
    | some m => if Version.lt m v then some v else some m
  else acc

/-- `semver.maxSatisfying(versions, range)`: the highest available
version satisfying the range, if any. -/
def maxSatisfying (versions : List Version) (r : VRange) : Option Version :=
  versions.foldl (maxSatStep r) none

/-- Number of ranges of `ranges` that the version `v` satisfies
(the satisfaction count computed by `findOptimalVersion`'s first
loop). -/
def countSat (v : Version) (ranges : List VRange) : Nat :=
  (ranges.filter (fun r => semverSatisfies v r)).length

/-- One step of `findOptimalVersion`'s selection loop over
`versionSatisfactionCount` (iterated in insertion order, i.e. in the
order of the available versions).  The accumulator is the pair
`(bestVersion, maxSatisfied)`, with `none` standing for the initial
falsy `''`.  Mirrors:
`if (count > maxSatisfied || (count === maxSatisfied && bestVersion && semver.gt(version, bestVersion)))`. -/
def selectStep (ranges : List VRange) (acc : Option Version × Nat) (v : Version) :
    Option Version × Nat :=
  match acc with
  | (none, m) =>
    if m < countSat v ranges then (some v, countSat v ranges) else (none, m)
  | (some b, m) =>
    if m < countSat v ranges then (some v, countSat v ranges)
    else if countSat v ranges = m ∧ Version.gtv v b then (some v, countSat v ranges)
    else (some b, m)

/-- `findOptimalVersion`: fold the selection loop over the available
versions; `none` models the `Could not find optimal version` throw
(reached exactly when `bestVersion` stays `''`). -/
def findOptimalVersion (availableVersions : List Version) (ranges : List VRange) :
    Option Version :=
  (availableVersions.foldl (selectStep ranges) (none, 0)).1

/-! ### Association lists: JavaScript objects / `Map`s with insertion order -/

/-- `map.get(key)` / `obj[key]` on an insertion-ordered association
list. -/
def alookup {α β : Type} [DecidableEq α] : List (α × β) → α → Option β
  | [], _ => none
  | (k, v) :: rest, key => if key = k then some v else alookup rest key

/-- `map.set(key, val)` / `obj[key] = val`: update an existing key in
place (keeping its position), append a fresh key. -/
def recordSet {α β : Type} [DecidableEq α] : List (α × β) → α → β → List (α × β)
  | [], key, val => [(key, val)]
  | (k, v) :: rest, key, val =>
    if key = k then (k, val) :: rest else (k, v) :: recordSet rest key val

/-- `set.add(x)` on an insertion-ordered set. -/
def setAdd {α : Type} [DecidableEq α] (l : List α) (x : α) : List α :=
  if x ∈ l then l else l ++ [x]

/-! ### Data model -/

/-- The dependency declarations of one published version
(`versions[v].dependencies`). -/
structure VersionData where
  dependencies : List (String × VRange)
deriving DecidableEq, Repr

/-- `PackageMetadata`: every published version with its declared
dependencies, in publication (insertion) order. -/
structure PackageMetadata where
  versions : List (Version × VersionData)
deriving DecidableEq, Repr

/-- The registry collaborator: a read-only name-to-metadata map,
immutable for the duration of a run.  `getPackageMetadata` is
`alookup`; a missing name models a fetch failure. -/
abbrev Registry : Type := List (String × PackageMetadata)

/-- `PackageNode` of the requirement graph. -/
structure PackageNode where
  name : String
  versionRequirements : List VRange
  dependencies : List (String × List VRange)
deriving DecidableEq, Repr

/-- State mutated by `buildDependencyGraph`: the package graph and the
per-run metadata cache. -/
structure GraphState where
  packageGraph : List (String × PackageNode)
  metadataCache : List (String × PackageMetadata)
deriving DecidableEq, Repr

/-- Errors of the graph-building phase.  `outOfFuel` is the embedding's
fuel-exhaustion marker (see the header); the others model the thrown
`Error`s. -/
inductive BuildErr where
  | outOfFuel
  | fetchFailed (name : String)
  | cannotResolve (name : String) (range : VRange)
  | versionDataMissing (name : String) (version : Version)
deriving DecidableEq, Repr

/-- A parent path: the slash-separated segments of a
`<name>/node_modules/...` chain. -/
abbrev ParentPath : Type := List String

/-- The literal `node_modules` path segment. -/
def nodeModulesDir : String := "node_modules"

/-- One `DependencyInstallation` entry of an installation plan; a
missing `parentDirectory` means installation at the project root. -/
structure DependencyInstallation where
  name : String
  version : Version
  parentDirectory : Option ParentPath := none
deriving DecidableEq, Repr

/-- State threaded through `processDependency`: the root-placement
table and the plan accumulated so far. -/
structure PlanState where
  rootPackages : List (String × Version)
  plan : List DependencyInstallation
deriving DecidableEq, Repr

/-- Errors of the plan-building phase.  `outOfFuel` is the fuel marker;
`missingOptimal`/`missingNode`/`missingMetadata` model the crashes of
the non-null assertions `optimalVersions.get(name)!`,
`packageGraph.get(name)!`, `metadataCache.get(name)!`;
`emptyRangeSet` models indexing `[...depVersionRanges][0]` on an empty
set; the rest model thrown `Error`s. -/
inductive PlanErr where
  | outOfFuel
  | missingOptimal (name : String)
  | missingNode (name : String)
  | missingMetadata (name : String)
  | emptyRangeSet (name depName : String)
  | cannotResolve (name : String) (range : VRange)
  | versionDataMissing (name : String) (version : Version)
deriving DecidableEq, Repr

/-! ### Phase 1: `buildDependencyGraph` -/

/-- The mutation of the consumer's node performed at the top of the
dependency loop: ensure `packageNode.dependencies` has a set for
`depName` and add `depVersionRange` to it.  (The source mutates the
node through a live reference; here the node is re-read from and
written back to the graph.) -/
def updateNodeDep (graph : List (String × PackageNode)) (name depName : String)
    (depRange : VRange) : List (String × PackageNode) :=
  match alookup graph name with
  | none => graph
  | some node =>
    recordSet graph name
      { node with
        dependencies :=
          recordSet node.dependencies depName
            (setAdd ((alookup node.dependencies depName).getD []) depRange) }

/-- The `for (const [depName, depVersionRange] of Object.entries(dependencies))`
loop of `buildDependencyGraph`, parameterised by the recursive call
`step`. -/
def buildDepsLoop (step : String → VRange → GraphState → Except BuildErr GraphState)
    (name : String) :
    List (String × VRange) → GraphState → Except BuildErr GraphState
  | [], st => .ok st
  | (depName, depRange) :: rest, st =>
    match step depName depRange
        { st with packageGraph := updateNodeDep st.packageGraph name depName depRange } with
    | .error e => .error e
    | .ok st2 => buildDepsLoop step name rest st2

/-- Steps 1-2 of `buildDependencyGraph`: create the node if it is
missing (`packageGraph.set(name, {...})`) and add the range to its
requirement set. -/
def graphRecordRange (graph : List (String × PackageNode)) (name : String)
    (range : VRange) : List (String × PackageNode) :=
  match alookup graph name with
  | none =>
    recordSet (graph ++ [(name, ⟨name, [], []⟩)]) name
      ⟨name, setAdd [] range, []⟩
  | some node =>
    recordSet graph name
      { node with versionRequirements := setAdd node.versionRequirements range }

/-- The cache-checked metadata fetch of `buildDependencyGraph`: reuse
the cached record; otherwise consult the registry (a missing name is
the `getPackageMetadata` failure) and store only the `versions`
information. -/
def fetchIntoCache (registry : Registry) (cache : List (String × PackageMetadata))
    (name : String) : Except BuildErr (List (String × PackageMetadata)) :=
  if (alookup cache name).isSome then .ok cache
  else
    match alookup registry name with
    | none => .error (.fetchFailed name)
    | some meta => .ok (recordSet cache name ⟨meta.versions⟩)

/-- `buildDependencyGraph(name, versionRange)` of the final revision:
create/update the node, record the range in its requirement set
(`graphRecordRange`, performed first in the source and independent of
the rest), fetch metadata through the cache, resolve the range with
`semver.maxSatisfying`, then recurse into the resolved version's
dependencies.  Fuel bounds the recursion depth. -/
def buildDependencyGraph (registry : Registry) :
    Nat → String → VRange → GraphState → Except BuildErr GraphState
  | 0, _, _, _ => .error .outOfFuel
  | fuel + 1, name, range, st =>
    match fetchIntoCache registry st.metadataCache name with
    | .error e => .error e
    | .ok cache1 =>
      match alookup cache1 name with
      | none => .error (.fetchFailed name)
      | some metadata =>
        match maxSatisfying (metadata.versions.map Prod.fst) range with
        | none => .error (.cannotResolve name range)
        | some resolvedVersion =>
          match alookup metadata.versions resolvedVersion with
          | none => .error (.versionDataMissing name resolvedVersion)
          | some packageJson =>
            buildDepsLoop
              (fun n r s => buildDependencyGraph registry fuel n r s)
              name packageJson.dependencies
              { packageGraph := graphRecordRange st.packageGraph name range,
                metadataCache := cache1 }

/-- The `for (const [name, versionRange] of Object.entries(topLevelDependencies))`
driver loop over the declared top-level dependencies. -/
def graphTopLoop (registry : Registry) (fuel : Nat) :
    List (String × VRange) → GraphState → Except BuildErr GraphState
  | [], st => .ok st
  | (name, range) :: rest, st =>
    match buildDependencyGraph registry fuel name range st with
    | .error e => .error e
    | .ok st1 => graphTopLoop registry fuel rest st1

/-! ### Phase 2 driver: optimal versions for every graph node -/

/-- Errors of the whole pipeline. -/
inductive PipelineErr where
  | buildErr (e : BuildErr)
  | missingCache (name : String)
  | optimalErr (name : String)
  | planErr (e : PlanErr)
  | lockErr (msg : String)
deriving DecidableEq, Repr

/-- The `for (const [name, packageNode] of packageGraph.entries())`
loop computing `optimalVersions`; `findOptimalVersion(name)` reads the
node and the cached metadata. -/
def computeOptimals (cache : List (String × PackageMetadata)) :
    List (String × PackageNode) → Except PipelineErr (List (String × Version))
  | [] => .ok []
  | (name, node) :: rest =>
    match alookup cache name with
    | none => .error (.missingCache name)
    | some metadata =>
      match findOptimalVersion (metadata.versions.map Prod.fst) node.versionRequirements with
      | none => .error (.optimalErr name)
      | some v =>
        match computeOptimals cache rest with
        | .error e => .error e
        | .ok l => .ok ((name, v) :: l)

/-! ### Phase 3: `buildInstallationPlan` / `processDependency`

`processDependencyAux` is the embedding of `processDependency`,
instrumented with a ghost list of `Placement`s: one record per
occurrence, holding the consumer range the occurrence was processed
under and the version that occurrence placed (or, for the
root-deduplication early return, the root version the occurrence was
deduplicated against).  The ghost output is only appended to, never
read; `processDependency` is its first projection and is the faithful
source function. -/

/-- Ghost record: an occurrence processed under `range` placed (or was
deduplicated against) `version`. -/
structure Placement where
  range : VRange
  version : Version
deriving DecidableEq, Repr

/-- The dependency loop of the `satisfiesRange` branch: iterate the
graph node's dependency edges, taking the first recorded range of each
edge (`[...depVersionRanges][0]`), and recurse with the child parent
path. -/
def planDepsLoopG
    (step : String → VRange → Option ParentPath → PlanState →
      Except PlanErr (PlanState × List Placement))
    (name : String) (parent : ParentPath) :
    List (String × List VRange) → PlanState → Except PlanErr (PlanState × List Placement)
  | [], st => .ok (st, [])
  | (depName, depRanges) :: rest, st =>
    match depRanges with
    | [] => .error (.emptyRangeSet name depName)
    | depRange :: _ =>
      match step depName depRange (some parent) st with
      | .error e => .error e
      | .ok (st1, log1) =>
        match planDepsLoopG step name parent rest st1 with
        | .error e => .error e
        | .ok (st2, log2) => .ok (st2, log1 ++ log2)

/-- The dependency loop of the override (`else`) branch: iterate the
resolved version's own `dependencies` from the metadata. -/
def planDepsLoopM
    (step : String → VRange → Option ParentPath → PlanState →
      Except PlanErr (PlanState × List Placement))
    (parent : ParentPath) :
    List (String × VRange) → PlanState → Except PlanErr (PlanState × List Placement)
  | [], st => .ok (st, [])
  | (depName, depRange) :: rest, st =>
    match step depName depRange (some parent) st with
    | .error e => .error e
    | .ok (st1, log1) =>
      match planDepsLoopM step parent rest st1 with
      | .error e => .error e
      | .ok (st2, log2) => .ok (st2, log1 ++ log2)

/-- `const isConflict = rootPackages.has(name) && rootPackages.get(name) !== version`. -/
def isConflictAt (roots : List (String × Version)) (name : String)
    (version : Version) : Bool :=
  match alookup roots name with
  | some v => decide (v ≠ version)
  | none => false

/-- The state after the `satisfiesRange` branch's push: on a conflict,
a nested entry at the caller's parent path; otherwise a fresh root
placement recorded in the root table. -/
def pushOptimal (st : PlanState) (name : String) (optimalVersion : Version)
    (parentPath : Option ParentPath) : PlanState :=
  if isConflictAt st.rootPackages name optimalVersion then
    { st with plan := st.plan ++ [⟨name, optimalVersion, parentPath⟩] }
  else
    { rootPackages := recordSet st.rootPackages name optimalVersion,
      plan := st.plan ++ [⟨name, optimalVersion, none⟩] }

/-- The child parent path of the `satisfiesRange` branch:
`isConflict || parentPath ? parentPath + '/' + name + '/node_modules' : name + '/node_modules'`. -/
def childPathOptimal (st : PlanState) (name : String) (optimalVersion : Version)
    (parentPath : Option ParentPath) : ParentPath :=
  if isConflictAt st.rootPackages name optimalVersion || parentPath.isSome then
    (parentPath.getD []) ++ [name, nodeModulesDir]
  else [name, nodeModulesDir]

/-- `processDependency(name, versionRange, parentPath)` of the final
revision, instrumented with the ghost placement log (ghost values are
only produced, never consumed).  Fuel bounds the recursion depth. -/
def processDependencyAux (graph : List (String × PackageNode))
    (cache : List (String × PackageMetadata)) (optimals : List (String × Version)) :
    Nat → String → VRange → Option ParentPath → PlanState →
      Except PlanErr (PlanState × List Placement)
  | 0, _, _, _, _ => .error .outOfFuel
  | fuel + 1, name, range, parentPath, st =>
    match alookup optimals name with
    | none => .error (.missingOptimal name)
    | some optimalVersion =>
      if semverSatisfies optimalVersion range then
        if alookup st.rootPackages name = some optimalVersion then
          .ok (st, [⟨range, optimalVersion⟩])
        else
          match alookup graph name with
          | none => .error (.missingNode name)
          | some packageNode =>
            match
              planDepsLoopG
                (fun n r p s => processDependencyAux graph cache optimals fuel n r p s)
                name (childPathOptimal st name optimalVersion parentPath)
                packageNode.dependencies
                (pushOptimal st name optimalVersion parentPath) with
            | .error e => .error e
            | .ok (st2, log2) => .ok (st2, ⟨range, optimalVersion⟩ :: log2)
      else
        match alookup cache name with
        | none => .error (.missingMetadata name)
        | some metadata =>
          match maxSatisfying (metadata.versions.map Prod.fst) range with
          | none => .error (.cannotResolve name range)
          | some version =>
            match alookup metadata.versions version with
            | none => .error (.versionDataMissing name version)
            | some packageJson =>
              match
                planDepsLoopM
                  (fun n r p s => processDependencyAux graph cache optimals fuel n r p s)
                  ((parentPath.getD []) ++ [name, nodeModulesDir])
                  packageJson.dependencies
                  { st with plan := st.plan ++ [⟨name, version, parentPath⟩] } with
              | .error e => .error e
              | .ok (st2, log2) => .ok (st2, ⟨range, version⟩ :: log2)

/-- The source `processDependency`: the instrumented function with the
ghost log projected away. -/
def processDependency (graph : List (String × PackageNode))
    (cache : List (String × PackageMetadata)) (optimals : List (String × Version))
    (fuel : Nat) (name : String) (range : VRange) (parentPath : Option ParentPath)
    (st : PlanState) : Except PlanErr PlanState :=
  (processDependencyAux graph cache optimals fuel name range parentPath st).map Prod.fst

/-- The top-level dependency loop of `buildInstallationPlan`. -/
def planTopLoop (graph : List (String × PackageNode))
    (cache : List (String × PackageMetadata)) (optimals : List (String × Version))
    (fuel : Nat) :
    List (String × VRange) → PlanState → Except PlanErr PlanState
  | [], st => .ok st
  | (name, range) :: rest, st =>
    match processDependency graph cache optimals fuel name range none st with
    | .error e => .error e
    | .ok st1 => planTopLoop graph cache optimals fuel rest st1

/-- `buildInstallationPlan(optimalVersions)`: fresh root table and
plan, process every declared dependency, return the plan. -/
def buildInstallationPlan (graph : List (String × PackageNode))
    (cache : List (String × PackageMetadata)) (optimals : List (String × Version))
    (topLevel : List (String × VRange)) (fuel : Nat) :
    Except PlanErr (List DependencyInstallation) :=
  match planTopLoop graph cache optimals fuel topLevel ⟨[], []⟩ with
  | .error e => .error e
  | .ok st => .ok st.plan

/-! ### Phase 4: the lock-file codec

Install paths (the keys of `packages`) are modelled, like parent
paths, as lists of slash-separated segments; the project-root key `""`
is the empty list.  A bare version string stored in a `dependencies`
mapping is the node-semver exact range, hence `VRange.exact`. -/

/-- One record of `packages` (`PackageLockEntry`). -/
structure PackageLockEntry where
  name : Option String := none
  version : Version
  resolved : Option String := none
  integrity : Option String := none
  dependencies : Option (List (String × VRange)) := none
deriving DecidableEq, Repr

/-- The `package-lock.json` structure (`PackageLock`). -/
structure PackageLock where
  name : String
  version : Version
  lockfileVersion : Nat
  requires : Bool
  packages : List (ParentPath × PackageLockEntry)
deriving DecidableEq, Repr

/-- Decimal rendering of a version, for the tarball URL. -/
def versionText (v : Version) : String :=
  toString v.major ++ "." ++ toString v.minor ++ "." ++ toString v.patch

/-- The registry tarball URL written into `resolved`. -/
def resolvedUrl (name : String) (v : Version) : String :=
  "https://registry.npmjs.org/" ++ name ++ "/-/" ++ name ++ "-" ++ versionText v ++ ".tgz"

/-- The `packages` key determined by a (name, parent path) pair:
`node_modules/<parent>/<name>` when nested, `node_modules/<name>` at
root. -/
def keyOfPair : String × Option ParentPath → ParentPath
  | (n, some parent) => [nodeModulesDir] ++ parent ++ [n]
  | (n, none) => [nodeModulesDir, n]

/-- The `packages` key of a plan entry. -/
def pathKey (e : DependencyInstallation) : ParentPath :=
  match e.parentDirectory with
  | some parent => [nodeModulesDir] ++ parent ++ [e.name]
  | none => [nodeModulesDir, e.name]

/-- One step of the fold building `resolvedTopLevelDependencies`:
record a root-level plan entry whose name is declared, mapped to its
resolved version (rendered as the exact range the bare version string
denotes). -/
def resolvedTopStep (topLevel : List (String × VRange))
    (acc : List (String × VRange)) (e : DependencyInstallation) :
    List (String × VRange) :=
  if e.parentDirectory = none ∧ (alookup topLevel e.name).isSome then
    recordSet acc e.name (VRange.exact e.version)
  else acc

/-- The `resolvedTopLevelDependencies` mapping of the lock's root
record. -/
def resolvedTopLevelDeps (topLevel : List (String × VRange))
    (plan : List DependencyInstallation) : List (String × VRange) :=
  plan.foldl (resolvedTopStep topLevel) []

/-- The `for (const pkg of installationPlan)` loop of
`generatePackageLock`, adding one record per plan entry.  The
`metadataCache.get(pkg.name)!` crash and the field access on an
undefined `versionMetadata` are modelled as errors; the integrity
collaborator (`calculateIntegrity`, a network fetch plus SHA-512) is
the supplied `integrityOf` oracle. -/
def lockPackagesLoop (cache : List (String × PackageMetadata))
    (integrityOf : String → Version → String) :
    List DependencyInstallation → List (ParentPath × PackageLockEntry) →
      Except String (List (ParentPath × PackageLockEntry))
  | [], pkgs => .ok pkgs
  | e :: rest, pkgs =>
    match alookup cache e.name with
    | none => .error ("missing metadata for " ++ e.name)
    | some metadata =>
      match alookup metadata.versions e.version with
      | none => .error ("missing version data for " ++ e.name)
      | some versionMetadata =>
        lockPackagesLoop cache integrityOf rest
          (recordSet pkgs (pathKey e)
            { version := e.version,
              resolved := some (resolvedUrl e.name e.version),
              integrity := some (integrityOf e.name e.version),
              dependencies := some versionMetadata.dependencies })

/-- `generatePackageLock`: the root record keyed by the empty path,
then one record per plan entry. -/
def generatePackageLock (projectName : String) (projectVersion : Version)
    (plan : List DependencyInstallation) (cache : List (String × PackageMetadata))
    (topLevel : List (String × VRange)) (integrityOf : String → Version → String) :
    Except String PackageLock :=
  match lockPackagesLoop cache integrityOf plan
      [(([] : ParentPath),
        { name := some projectName, version := projectVersion,
          dependencies := some (resolvedTopLevelDeps topLevel plan) })] with
  | .error e => .error e
  | .ok pkgs =>
    .ok
      { name := projectName, version := projectVersion, lockfileVersion := 3,
        requires := true, packages := pkgs }

/-- Last segment of a nonempty segment list (`parts[parts.length - 1]`). -/
def lastSeg : String → List String → String
  | x, [] => x
  | _, y :: ys => lastSeg y ys

/-- Parse a non-root `packages` key into `(name, parentDirectory)`:
a single-segment path (no `/`) is the name itself; a two-segment path
(`node_modules/<name>`) is a root entry; a longer path drops the
leading `node_modules` and the trailing name (`parts.slice(1, -1)`)
to recover the parent path. -/
def parseLockPath : ParentPath → String × Option ParentPath
  | [] => ("", none)
  | [s] => (s, none)
  | a :: b :: rest =>
    (lastSeg a (b :: rest),
     if rest.isEmpty then none else some ((b :: rest).dropLast))

/-- `buildInstallationPlanFromLock(packageLock, topLevelDependencies)`:
reject (returning the empty plan) when the root record is missing, its
dependency mapping is absent, or a declared name is missing from that
mapping; otherwise reconstruct one entry per non-root record. -/
def buildInstallationPlanFromLock (lock : PackageLock)
    (topLevel : List (String × VRange)) : List DependencyInstallation :=
  match alookup lock.packages [] with
  | none => []
  | some rootPackage =>
    match rootPackage.dependencies with
    | none => []
    | some rootDeps =>
      if topLevel.all (fun nr => (alookup rootDeps nr.1).isSome) then
        (lock.packages.filter (fun pe => !pe.1.isEmpty)).map
          (fun pe =>
            { name := (parseLockPath pe.1).1, version := pe.2.version,
              parentDirectory := (parseLockPath pe.1).2 })
      else []

/-- The round trip the spec speaks about: encode a plan, then decode
the resulting lock with the same declared dependencies. -/
def lockRoundTrip (plan : List DependencyInstallation)
    (cache : List (String × PackageMetadata)) (topLevel : List (String × VRange))
    (integrityOf : String → Version → String) :
    Except String (List DependencyInstallation) :=
  match generatePackageLock "my-project" ⟨1, 0, 0⟩ plan cache topLevel integrityOf with
  | .error e => .error e
  | .ok lock => .ok (buildInstallationPlanFromLock lock topLevel)

/-! ### The pipeline: `constructInstallationPlan` -/

/-- `constructInstallationPlan(topLevelDependencies)` of the final
revision.  `lockFile` is the content of `package-lock.json` when the
file exists (`packageLockExists()`/`readPackageLock()`); when present
the decoded result is returned directly.  Otherwise: build the graph,
compute optimal versions, build the plan, generate (and persist) the
lock, return the plan. -/
def constructInstallationPlan (lockFile : Option PackageLock) (registry : Registry)
    (topLevel : List (String × VRange)) (integrityOf : String → Version → String)
    (fuel : Nat) : Except PipelineErr (List DependencyInstallation) :=
  match lockFile with
  | some lock => .ok (buildInstallationPlanFromLock lock topLevel)
  | none =>
    match graphTopLoop registry fuel topLevel ⟨[], []⟩ with
    | .error e => .error (.buildErr e)
    | .ok gst =>
      match computeOptimals gst.metadataCache gst.packageGraph with
      | .error e => .error e
      | .ok optimals =>
        match buildInstallationPlan gst.packageGraph gst.metadataCache optimals topLevel fuel with
        | .error e => .error (.planErr e)
        | .ok plan =>
          match generatePackageLock "my-project" ⟨1, 0, 0⟩ plan gst.metadataCache topLevel
              integrityOf with
          | .error m => .error (.lockErr m)
          | .ok _ => .ok plan

/-! ### Proof-support definitions -/

/-- Invariant of `findOptimalVersion`'s selection loop after the
versions in `seen` have been processed: either no version so far had a
positive satisfaction count, or the accumulator holds a seen version
whose count is the running maximum and which is the version-order
maximum among the seen versions attaining it. -/
def SelInv (ranges : List VRange) (seen : List Version) :
    Option Version × Nat → Prop
  | (none, m) => m = 0 ∧ ∀ v ∈ seen, countSat v ranges = 0
  | (some b, m) =>
    b ∈ seen ∧ countSat b ranges = m ∧ 1 ≤ m ∧
      (∀ v ∈ seen, countSat v ranges ≤ m) ∧
      (∀ v ∈ seen, countSat v ranges = m → Version.lev v b = true)

/-- Every recorded placement satisfies the consumer range it was
reached through. -/
def PlacedOk (log : List Placement) : Prop :=
  ∀ pl ∈ log, semverSatisfies pl.version pl.range = true

/-- The output plan extends the input plan, and every new entry's
version is recorded in the ghost log. -/
def PlanExtends (st : PlanState) (out : PlanState × List Placement) : Prop :=
  ∃ tail, out.1.plan = st.plan ++ tail ∧
    ∀ e ∈ tail, ∃ pl ∈ out.2, pl.version = e.version

/-- Number of root-level (parentless) plan entries for `name`. -/
def countParentless (plan : List DependencyInstallation) (name : String) : Nat :=
  (plan.filter (fun e => decide (e.name = name ∧ e.parentDirectory = none))).length

/-- Every binding of the root-placement table is that package's
optimal version. -/
def RootsMatchOptimals (optimals : List (String × Version)) (st : PlanState) : Prop :=
  ∀ n v, alookup st.rootPackages n = some v → alookup optimals n = some v

/-- The parentless entries of the plan are exactly the bindings of the
root-placement table, one entry per bound name. -/
def RootEntriesMatchTable (st : PlanState) : Prop :=
  ∀ n, countParentless st.plan n = if (alookup st.rootPackages n).isSome then 1 else 0

/-- Every cached metadata record is the registry's record for that
name (the cache memoizes the pure registry lookup). -/
def CacheFromReg (registry : Registry) (cache : List (String × PackageMetadata)) : Prop :=
  ∀ n m, alookup cache n = some m → alookup registry n = some m

/-- A rank function witnessing acyclicity of the registry's dependency
relation: every dependency edge of every published version strictly
decreases the rank. -/
def RankDecreasing (registry : Registry) (rank : String → Nat) : Prop :=
  ∀ nm ∈ registry, ∀ vvd ∈ nm.2.versions, ∀ dr ∈ vvd.2.dependencies,
    rank dr.1 < rank nm.1

/-! ### Concrete scenarios used by witnesses and counterexamples -/

/-- A constant integrity oracle, standing in for the network-fetching
`calculateIntegrity` collaborator. -/
def noIntegrity : String → Version → String := fun _ _ => "sha512-test"

/-- Registry of the conflicting-top-level scenario: `shared` has
versions `1.0.0` and `2.0.0`; `consumer@1.0.0` depends on
`shared@^2.0.0`. -/
def reg2 : Registry :=
  [("shared", ⟨[(⟨1, 0, 0⟩, ⟨[]⟩), (⟨2, 0, 0⟩, ⟨[]⟩)]⟩),
   ("consumer", ⟨[(⟨1, 0, 0⟩, ⟨[("shared", .caret ⟨2, 0, 0⟩)]⟩)]⟩)]

/-- Declared top-level dependencies of the conflicting scenario:
`shared@^1.0.0` (which the optimal `2.0.0` cannot satisfy) and
`consumer@^1.0.0`. -/
def top2 : List (String × VRange) :=
  [("shared", .caret ⟨1, 0, 0⟩), ("consumer", .caret ⟨1, 0, 0⟩)]

/-- The plan the pipeline produces on `reg2`/`top2` (two parentless
`shared` entries). -/
def plan2 : List DependencyInstallation :=
  [⟨"shared", ⟨1, 0, 0⟩, none⟩, ⟨"consumer", ⟨1, 0, 0⟩, none⟩,
   ⟨"shared", ⟨2, 0, 0⟩, none⟩]

/-- The metadata cache at the end of the `reg2`/`top2` run (equal to
the registry). -/
def cache2 : List (String × PackageMetadata) := reg2

/-- The requirement graph the `reg2`/`top2` run builds. -/
def graph2 : List (String × PackageNode) :=
  [("shared", ⟨"shared", [.caret ⟨1, 0, 0⟩, .caret ⟨2, 0, 0⟩], []⟩),
   ("consumer", ⟨"consumer", [.caret ⟨1, 0, 0⟩], [("shared", [.caret ⟨2, 0, 0⟩])]⟩)]

/-- The optimal versions of the `reg2`/`top2` run: the tie on `shared`
resolves to `2.0.0`. -/
def optimals2 : List (String × Version) :=
  [("shared", ⟨2, 0, 0⟩), ("consumer", ⟨1, 0, 0⟩)]

/-- A structurally valid lock whose `packages` lacks the root (empty
path) record. -/
def c5Lock : PackageLock :=
  { name := "p", version := ⟨1, 0, 0⟩, lockfileVersion := 3, requires := true,
    packages := [] }

/-- One-package registry for the lock-rejection scenario. -/
def c5Registry : Registry := [("pkg-a", ⟨[(⟨1, 0, 0⟩, ⟨[]⟩)]⟩)]

/-- Declared dependencies for the lock-rejection scenario. -/
def c5Top : List (String × VRange) := [("pkg-a", .caret ⟨1, 0, 0⟩)]

/-- A well-keyed plan for the round-trip witness: `a` at root, `b`
nested under it. -/
def planG : List DependencyInstallation :=
  [⟨"a", ⟨1, 0, 0⟩, none⟩, ⟨"b", ⟨1, 2, 0⟩, some ["a", "node_modules"]⟩]

/-- Metadata cache for the round-trip witness. -/
def cacheG : List (String × PackageMetadata) :=
  [("a", ⟨[(⟨1, 0, 0⟩, ⟨[("b", .caret ⟨1, 0, 0⟩)]⟩)]⟩),
   ("b", ⟨[(⟨1, 2, 0⟩, ⟨[]⟩)]⟩)]

/-- Declared dependencies for the round-trip witness. -/
def topG : List (String × VRange) := [("a", .caret ⟨1, 0, 0⟩)]

/-- One-node inputs for plan-builder witnesses. -/
def graphW : List (String × PackageNode) := [("a", ⟨"a", [.caret ⟨1, 0, 0⟩], []⟩)]

/-- Metadata cache for plan-builder witnesses. -/
def cacheW : List (String × PackageMetadata) := [("a", ⟨[(⟨1, 1, 0⟩, ⟨[]⟩)]⟩)]

/-- Optimal versions for plan-builder witnesses. -/
def optimalsW : List (String × Version) := [("a", ⟨1, 1, 0⟩)]

/-- Acyclic two-package registry for the termination witness:
`top@1.0.0` depends on `leaf@^1.0.0`. -/
def linReg : Registry :=
  [("top", ⟨[(⟨1, 0, 0⟩, ⟨[("leaf", .caret ⟨1, 0, 0⟩)]⟩)]⟩),
   ("leaf", ⟨[(⟨1, 0, 0⟩, ⟨[]⟩)]⟩)]

/-- A rank function for `linReg`. -/
def linRank : String → Nat := fun n => if n = "leaf" then 0 else 1

/-- Metadata of one member of the circular registry: a single version
`1.0.0` depending on `other@1.0.0`. -/
def cycMeta (other : String) : PackageMetadata :=
  ⟨[(⟨1, 0, 0⟩, ⟨[(other, .exact ⟨1, 0, 0⟩)]⟩)]⟩

/-- Circular registry: `cyc-a@1.0.0` and `cyc-b@1.0.0` depend on each
other (exact ranges). -/
def cycReg : Registry := [("cyc-a", cycMeta "cyc-b"), ("cyc-b", cycMeta "cyc-a")]

/-! ## Theorems

First the generic lemma library (version order, association lists,
`maxSatisfying`), then per-phase lemmas, then the claim theorems. -/

theorem Version.lev_refl (v : Version) : Version.lev v v = true := by
  simp [Version.lev]

theorem Version.lev_of_lt {a b : Version} (h : Version.lt a b = true) :
    Version.lev a b = true := by
  simp [Version.lev, h]

theorem Version.lev_of_not_lt {a b : Version} (h : Version.lt b a = false) :
    Version.lev a b = true := by
  cases a with
  | mk am an ap =>
    cases b with
    | mk bm bn bp =>
      simp [Version.lt] at h
      simp [Version.lev, Version.lt, Version.mk.injEq]
      omega

theorem Version.lev_trans {a b c : Version} (hab : Version.lev a b = true)
    (hbc : Version.lev b c = true) : Version.lev a c = true := by
  cases a with
  | mk am an ap =>
    cases b with
    | mk bm bn bp =>
      cases c with
      | mk cm cn cp =>
        simp [Version.lev, Version.lt, Version.mk.injEq] at hab hbc ⊢
        omega

theorem maxSatStep_sat {r : VRange} {acc : Option Version} {v w : Version}
    (hacc : ∀ u, acc = some u → semverSatisfies u r = true)
    (h : maxSatStep r acc v = some w) : semverSatisfies w r = true := by
  cases acc with
  | none =>
    cases hs : semverSatisfies v r with
    | true =>
      simp [maxSatStep, hs] at h
      exact h ▸ hs
    | false => simp [maxSatStep, hs] at h
  | some m =>
    cases hs : semverSatisfies v r with
    | true =>
      cases hlt : Version.lt m v with
      | true =>
        simp [maxSatStep, hs, hlt] at h
        exact h ▸ hs
      | false =>
        simp [maxSatStep, hs, hlt] at h
        exact h ▸ hacc m rfl
    | false =>
      simp [maxSatStep, hs] at h
      exact h ▸ hacc m rfl

theorem maxSatisfying_foldl_sat {r : VRange} :
    ∀ (l : List Version) (acc : Option Version),
      (∀ u, acc = some u → semverSatisfies u r = true) →
      ∀ w, l.foldl (maxSatStep r) acc = some w → semverSatisfies w r = true := by
  intro l
  induction l with
  | nil => intro acc hacc w h; exact hacc w h
  | cons v rest ih =>
    intro acc hacc w h
    simp [List.foldl_cons] at h
    exact ih (maxSatStep r acc v) (fun u hu => maxSatStep_sat hacc hu) w h

/-- The version `semver.maxSatisfying` returns satisfies the range. -/
theorem maxSatisfying_sat {versions : List Version} {r : VRange} {v : Version}
    (h : maxSatisfying versions r = some v) : semverSatisfies v r = true :=
  maxSatisfying_foldl_sat versions none (by intro u hu; cases hu) v h

/-! ### The selector's loop invariant -/

theorem selectStep_inv {ranges : List VRange} {seen : List Version}
    {acc : Option Version × Nat} (v : Version) (hinv : SelInv ranges seen acc) :
    SelInv ranges (seen ++ [v]) (selectStep ranges acc v) := by
  obtain ⟨best, m⟩ := acc
  cases best with
  | none =>
    obtain ⟨hm, hall⟩ := hinv
    subst hm
    by_cases hc : 0 < countSat v ranges
    · show SelInv ranges (seen ++ [v]) (if 0 < countSat v ranges then _ else _)
      rw [if_pos hc]
      refine ⟨by simp, rfl, hc, ?_, ?_⟩
      · intro w hw
        rcases List.mem_append.mp hw with hw | hw
        · exact le_of_eq_of_le (hall w hw) (Nat.zero_le _)
        · rw [List.mem_singleton] at hw; subst hw; exact Nat.le_refl _
      · intro w hw _
        rcases List.mem_append.mp hw with hw | hw
        · exact absurd (hall w hw) (by omega)
        · rw [List.mem_singleton] at hw; subst hw; exact Version.lev_refl _
    · show SelInv ranges (seen ++ [v]) (if 0 < countSat v ranges then _ else _)
      rw [if_neg hc]
      refine ⟨rfl, ?_⟩
      intro w hw
      rcases List.mem_append.mp hw with hw | hw
      · exact hall w hw
      · rw [List.mem_singleton] at hw; subst hw; omega
  | some b =>
    obtain ⟨hmem, hcb, hm1, hmax, htie⟩ := hinv
    by_cases hc : m < countSat v ranges
    · show SelInv ranges (seen ++ [v]) (if m < countSat v ranges then _ else _)
      rw [if_pos hc]
      refine ⟨by simp, rfl, by omega, ?_, ?_⟩
      · intro w hw
        rcases List.mem_append.mp hw with hw | hw
        · exact Nat.le_of_lt (Nat.lt_of_le_of_lt (hmax w hw) hc)
        · rw [List.mem_singleton] at hw; subst hw; exact Nat.le_refl _
      · intro w hw hweq
        rcases List.mem_append.mp hw with hw | hw
        · exact absurd (hmax w hw) (by omega)
        · rw [List.mem_singleton] at hw; subst hw; exact Version.lev_refl _
    · by_cases htb : countSat v ranges = m ∧ Version.gtv v b = true
      · show SelInv ranges (seen ++ [v])
          (if m < countSat v ranges then _
           else if countSat v ranges = m ∧ Version.gtv v b = true then _ else _)
        rw [if_neg hc, if_pos htb]
        obtain ⟨hcm, hgt⟩ := htb
        refine ⟨by simp, rfl, by omega, ?_, ?_⟩
        · intro w hw
          rcases List.mem_append.mp hw with hw | hw
          · exact le_of_le_of_eq (hmax w hw) hcm.symm
          · rw [List.mem_singleton] at hw; subst hw; exact Nat.le_refl _
        · intro w hw hweq
          rcases List.mem_append.mp hw with hw | hw
          · exact Version.lev_trans (htie w hw (by omega)) (Version.lev_of_lt hgt)
          · rw [List.mem_singleton] at hw; subst hw; exact Version.lev_refl _
      · show SelInv ranges (seen ++ [v])
          (if m < countSat v ranges then _
           else if countSat v ranges = m ∧ Version.gtv v b = true then _ else _)
        rw [if_neg hc, if_neg htb]
        refine ⟨List.mem_append_left _ hmem, hcb, hm1, ?_, ?_⟩
        · intro w hw
          rcases List.mem_append.mp hw with hw | hw
          · exact hmax w hw
          · rw [List.mem_singleton] at hw; subst hw; omega
        · intro w hw hweq
          rcases List.mem_append.mp hw with hw | hw
          · exact htie w hw hweq
          · rw [List.mem_singleton] at hw; subst hw
            have hgt : Version.gtv w b = false := by
              by_contra hne
              rw [Bool.not_eq_false] at hne
              exact htb ⟨hweq, hne⟩
            exact Version.lev_of_not_lt hgt

theorem selectFold_inv (ranges : List VRange) :
    ∀ (l : List Version) (seen : List Version) (acc : Option Version × Nat),
      SelInv ranges seen acc →
      SelInv ranges (seen ++ l) (l.foldl (selectStep ranges) acc) := by
  intro l
  induction l with
  | nil => intro seen acc h; simpa using h
  | cons v rest ih =>
    intro seen acc h
    have h1 := selectStep_inv v h
    have h2 := ih (seen ++ [v]) (selectStep ranges acc v) h1
    simpa [List.append_assoc] using h2

theorem findOptimalVersion_inv (versions : List Version) (ranges : List VRange) :
    SelInv ranges versions (versions.foldl (selectStep ranges) (none, 0)) := by
  have h := selectFold_inv ranges versions [] (none, 0)
    (by exact ⟨rfl, by intro v hv; cases hv⟩)
  simpa using h

/-! ### Claims C3 and C7: the optimal-version selector -/

/-- C3 (counterexample).  The claim states that for every requirement
node with at least one published version the selector returns a
published version of maximal satisfaction count.  On the node with the
single published version `1.2.3` and requirement set `{^2.0.0}` the
selector returns nothing (the source throws
`Could not find optimal version`), because `bestVersion` is never
assigned when every satisfaction count is zero. -/
theorem C3_counterexample :
    findOptimalVersion [⟨1, 2, 3⟩] [.caret ⟨2, 0, 0⟩] = none := by decide

/-- C3 (amended): provided at least one published version satisfies at
least one range of the requirement set, the selector returns a
published version whose satisfaction count is maximal over all
published versions and which is the greatest, in the strict
semantic-version order, among the versions attaining that count. -/
theorem C3_selector_max_count_tiebreak (versions : List Version) (ranges : List VRange)
    (h : ∃ v ∈ versions, 1 ≤ countSat v ranges) :
    ∃ best, findOptimalVersion versions ranges = some best ∧ best ∈ versions ∧
      (∀ w ∈ versions, countSat w ranges ≤ countSat best ranges) ∧
      (∀ w ∈ versions, countSat w ranges = countSat best ranges →
        Version.lev w best = true) := by
  have hinv := findOptimalVersion_inv versions ranges
  rcases hfold : versions.foldl (selectStep ranges) (none, 0) with ⟨best, m⟩
  rw [hfold] at hinv
  cases best with
  | none =>
    obtain ⟨v, hv, hc⟩ := h
    have := hinv.2 v hv
    omega
  | some b =>
    obtain ⟨hmem, hcb, hm1, hmax, htie⟩ := hinv
    refine ⟨b, ?_, hmem, ?_, ?_⟩
    · unfold findOptimalVersion
      rw [hfold]
    · intro w hw
      rw [hcb]
      exact hmax w hw
    · intro w hw hweq
      exact htie w hw (by omega)

/-- C3 (witness): on versions `9.0.0`, `10.0.0` with the requirement
set `{9.0.0, 10.0.0}` (a count tie), the selector picks `10.0.0`:
the greater version in semantic-version order (string comparison would
have picked `"9.0.0"`). -/
theorem C3_witness :
    ∃ best,
      findOptimalVersion [⟨9, 0, 0⟩, ⟨10, 0, 0⟩] [.exact ⟨9, 0, 0⟩, .exact ⟨10, 0, 0⟩]
          = some best ∧
        best ∈ [⟨9, 0, 0⟩, ⟨10, 0, 0⟩] ∧
        (∀ w ∈ [⟨9, 0, 0⟩, ⟨10, 0, 0⟩],
          countSat w [.exact ⟨9, 0, 0⟩, .exact ⟨10, 0, 0⟩] ≤
            countSat best [.exact ⟨9, 0, 0⟩, .exact ⟨10, 0, 0⟩]) ∧
        (∀ w ∈ [⟨9, 0, 0⟩, ⟨10, 0, 0⟩],
          countSat w [.exact ⟨9, 0, 0⟩, .exact ⟨10, 0, 0⟩] =
              countSat best [.exact ⟨9, 0, 0⟩, .exact ⟨10, 0, 0⟩] →
            Version.lev w best = true) :=
  C3_selector_max_count_tiebreak _ _ (by decide)

/-- C7 (counterexample).  The claim states the selector fails only on
zero published versions; with the published version `1.0.0` and the
requirement set `{^3.0.0}` no count is positive and the selector fails
anyway. -/
theorem C7_counterexample :
    findOptimalVersion [⟨1, 0, 0⟩] [.caret ⟨3, 0, 0⟩] = none := by decide

/-- C7 (amended): the selector fails exactly when no published version
satisfies any range of the requirement set — in particular when there
are zero published versions; whenever some published version satisfies
at least one range it returns a version (a winning count smaller than
the number of ranges is not a failure). -/
theorem C7_selector_failure_iff_all_counts_zero (versions : List Version)
    (ranges : List VRange) :
    findOptimalVersion versions ranges = none ↔
      ∀ v ∈ versions, countSat v ranges = 0 := by
  have hinv := findOptimalVersion_inv versions ranges
  rcases hfold : versions.foldl (selectStep ranges) (none, 0) with ⟨best, m⟩
  rw [hfold] at hinv
  unfold findOptimalVersion
  rw [hfold]
  cases best with
  | none =>
    constructor
    · intro _
      exact hinv.2
    · intro _
      rfl
  | some b =>
    obtain ⟨hmem, hcb, hm1, _, _⟩ := hinv
    constructor
    · intro h; cases h
    · intro hall
      exact absurd (hall b hmem) (by omega)

/-! ### Association-list lemmas -/

theorem alookup_recordSet {α β : Type} [DecidableEq α] (l : List (α × β)) (k : α)
    (v : β) (k' : α) :
    alookup (recordSet l k v) k' = if k' = k then some v else alookup l k' := by
  induction l with
  | nil =>
    by_cases h : k' = k
    · simp [recordSet, alookup, h]
    · simp [recordSet, alookup, h]
  | cons p rest ih =>
    obtain ⟨pk, pv⟩ := p
    by_cases hk : k = pk
    · subst hk
      by_cases h : k' = k
      · simp [recordSet, alookup, h]
      · simp [recordSet, alookup, h]
    · by_cases h' : k' = pk
      · subst h'
        simp [recordSet, alookup, hk, Ne.symm hk]
      · simp [recordSet, alookup, hk, h', ih]

theorem alookup_mem {α β : Type} [DecidableEq α] {l : List (α × β)} {k : α} {v : β}
    (h : alookup l k = some v) : (k, v) ∈ l := by
  induction l with
  | nil => simp [alookup] at h
  | cons p rest ih =>
    obtain ⟨pk, pv⟩ := p
    by_cases hk : k = pk
    · subst hk
      simp [alookup] at h
      subst h
      exact List.mem_cons_self _ _
    · simp [alookup, hk] at h
      exact List.mem_cons_of_mem _ (ih h)

theorem alookup_eq_none_iff {α β : Type} [DecidableEq α] (l : List (α × β)) (k : α) :
    alookup l k = none ↔ k ∉ l.map Prod.fst := by
  induction l with
  | nil => simp [alookup]
  | cons p rest ih =>
    obtain ⟨pk, pv⟩ := p
    by_cases hk : k = pk
    · subst hk
      simp [alookup]
    · simp [alookup, hk, ih, Ne.symm, hk]

theorem recordSet_append_of_none {α β : Type} [DecidableEq α] {l : List (α × β)}
    {k : α} (v : β) (h : alookup l k = none) : recordSet l k v = l ++ [(k, v)] := by
  induction l with
  | nil => simp [recordSet]
  | cons p rest ih =>
    obtain ⟨pk, pv⟩ := p
    by_cases hk : k = pk
    · subst hk
      simp [alookup] at h
    · simp [alookup, hk] at h
      simp [recordSet, hk, ih h]

/-! ### Plan-extension lemmas (claim C1) -/

theorem countParentless_append (l l' : List DependencyInstallation) (n : String) :
    countParentless (l ++ l') n = countParentless l n + countParentless l' n := by
  simp [countParentless, List.filter_append]

theorem pushOptimal_plan (st : PlanState) (name : String) (v : Version)
    (p : Option ParentPath) :
    ∃ par, (pushOptimal st name v p).plan = st.plan ++ [⟨name, v, par⟩] := by
  unfold pushOptimal
  split
  · exact ⟨p, rfl⟩
  · exact ⟨none, rfl⟩

theorem planDepsLoopG_ext
    {step : String → VRange → Option ParentPath → PlanState →
      Except PlanErr (PlanState × List Placement)}
    (hstep : ∀ n r p s out, step n r p s = .ok out → PlacedOk out.2 ∧ PlanExtends s out) :
    ∀ (deps : List (String × List VRange)) (name : String) (parent : ParentPath)
      (st : PlanState) (out : PlanState × List Placement),
      planDepsLoopG step name parent deps st = .ok out →
      PlacedOk out.2 ∧ PlanExtends st out := by
  intro deps
  induction deps with
  | nil =>
    intro name parent st out h
    unfold planDepsLoopG at h
    simp only [Except.ok.injEq] at h
    subst h
    exact ⟨fun pl hpl => absurd hpl (List.not_mem_nil pl),
      ⟨[], by simp, fun e he => absurd he (List.not_mem_nil e)⟩⟩
  | cons d rest ih =>
    intro name parent st out h
    obtain ⟨depName, depRanges⟩ := d
    cases depRanges with
    | nil =>
      unfold planDepsLoopG at h
      simp at h
    | cons r rs =>
      unfold planDepsLoopG at h
      split at h
      next => simp at h
      next r2 rs2 hcons =>
        split at h
        next => simp at h
        next st1 log1 heq =>
          split at h
          next => simp at h
          next st2 log2 heq2 =>
            simp only [Except.ok.injEq] at h
            subst h
            obtain ⟨hlog1, hext1⟩ := hstep _ _ _ _ _ heq
            obtain ⟨hlog2, hext2⟩ := ih _ _ _ _ heq2
            constructor
            · intro pl hpl
              rcases List.mem_append.mp hpl with hpl | hpl
              · exact hlog1 pl hpl
              · exact hlog2 pl hpl
            · obtain ⟨t1, ht1, he1⟩ := hext1
              obtain ⟨t2, ht2, he2⟩ := hext2
              refine ⟨t1 ++ t2, ?_, ?_⟩
              · rw [ht2, ht1, List.append_assoc]
              · intro e he
                rcases List.mem_append.mp he with he | he
                · obtain ⟨pl, hpl, hv⟩ := he1 e he
                  exact ⟨pl, List.mem_append_left _ hpl, hv⟩
                · obtain ⟨pl, hpl, hv⟩ := he2 e he
                  exact ⟨pl, List.mem_append_right _ hpl, hv⟩

theorem planDepsLoopM_ext
    {step : String → VRange → Option ParentPath → PlanState →
      Except PlanErr (PlanState × List Placement)}
    (hstep : ∀ n r p s out, step n r p s = .ok out → PlacedOk out.2 ∧ PlanExtends s out) :
    ∀ (deps : List (String × VRange)) (parent : ParentPath)
      (st : PlanState) (out : PlanState × List Placement),
      planDepsLoopM step parent deps st = .ok out →
      PlacedOk out.2 ∧ PlanExtends st out := by
  intro deps
  induction deps with
  | nil =>
    intro parent st out h
    unfold planDepsLoopM at h
    simp only [Except.ok.injEq] at h
    subst h
    exact ⟨fun pl hpl => absurd hpl (List.not_mem_nil pl),
      ⟨[], by simp, fun e he => absurd he (List.not_mem_nil e)⟩⟩
  | cons d rest ih =>
    intro parent st out h
    obtain ⟨depName, depRange⟩ := d
    unfold planDepsLoopM at h
    split at h
    next heq => simp at h
    next st1 log1 heq =>
      split at h
      next heq2 => simp at h
      next st2 log2 heq2 =>
        simp only [Except.ok.injEq] at h
        subst h
        obtain ⟨hlog1, hext1⟩ := hstep _ _ _ _ _ heq
        obtain ⟨hlog2, hext2⟩ := ih _ _ _ heq2
        constructor
        · intro pl hpl
          rcases List.mem_append.mp hpl with hpl | hpl
          · exact hlog1 pl hpl
          · exact hlog2 pl hpl
        · obtain ⟨t1, ht1, he1⟩ := hext1
          obtain ⟨t2, ht2, he2⟩ := hext2
          refine ⟨t1 ++ t2, ?_, ?_⟩
          · rw [ht2, ht1, List.append_assoc]
          · intro e he
            rcases List.mem_append.mp he with he | he
            · obtain ⟨pl, hpl, hv⟩ := he1 e he
              exact ⟨pl, List.mem_append_left _ hpl, hv⟩
            · obtain ⟨pl, hpl, hv⟩ := he2 e he
              exact ⟨pl, List.mem_append_right _ hpl, hv⟩

theorem processDependencyAux_ext (graph : List (String × PackageNode))
    (cache : List (String × PackageMetadata)) (optimals : List (String × Version)) :
    ∀ (fuel : Nat) (name : String) (range : VRange) (parentPath : Option ParentPath)
      (st : PlanState) (out : PlanState × List Placement),
      processDependencyAux graph cache optimals fuel name range parentPath st = .ok out →
      PlacedOk out.2 ∧ PlanExtends st out := by
  intro fuel
  induction fuel with
  | zero =>
    intro name range parentPath st out h
    unfold processDependencyAux at h
    simp at h
  | succ f ih =>
    intro name range parentPath st out h
    unfold processDependencyAux at h
    split at h
    next => simp at h
    next optimalVersion hopt =>
      split at h
      next hsat =>
        split at h
        next hdedup =>
          simp only [Except.ok.injEq] at h
          subst h
          constructor
          · intro pl hpl
            rw [List.mem_singleton] at hpl
            subst hpl
            exact hsat
          · exact ⟨[], by simp, fun e he => absurd he (List.not_mem_nil e)⟩
        next hndedup =>
          split at h
          next => simp at h
          next packageNode hnode =>
            split at h
            next heq => simp at h
            next st2 log2 heq =>
              simp only [Except.ok.injEq] at h
              subst h
              obtain ⟨hlog2, hext2⟩ :=
                planDepsLoopG_ext (fun n r p s o hh => ih n r p s o hh) _ _ _ _ _ heq
              obtain ⟨par, hpush⟩ := pushOptimal_plan st name optimalVersion parentPath
              constructor
              · intro pl hpl
                rcases List.mem_cons.mp hpl with hpl | hpl
                · subst hpl
                  exact hsat
                · exact hlog2 pl hpl
              · obtain ⟨t2, ht2, he2⟩ := hext2
                refine ⟨⟨name, optimalVersion, par⟩ :: t2, ?_, ?_⟩
                · rw [ht2, hpush, List.append_assoc]
                  rfl
                · intro e he
                  rcases List.mem_cons.mp he with he | he
                  · subst he
                    exact ⟨⟨range, optimalVersion⟩, List.mem_cons_self _ _, rfl⟩
                  · obtain ⟨pl, hpl, hv⟩ := he2 e he
                    exact ⟨pl, List.mem_cons_of_mem _ hpl, hv⟩
      next hnsat =>
        split at h
        next => simp at h
        next metadata hmeta =>
          split at h
          next => simp at h
          next version hmax =>
            split at h
            next => simp at h
            next packageJson hvd =>
              split at h
              next heq => simp at h
              next st2 log2 heq =>
                simp only [Except.ok.injEq] at h
                subst h
                obtain ⟨hlog2, hext2⟩ :=
                  planDepsLoopM_ext (fun n r p s o hh => ih n r p s o hh) _ _ _ _ heq
                constructor
                · intro pl hpl
                  rcases List.mem_cons.mp hpl with hpl | hpl
                  · subst hpl
                    exact maxSatisfying_sat hmax
                  · exact hlog2 pl hpl
                · obtain ⟨t2, ht2, he2⟩ := hext2
                  refine ⟨⟨name, version, parentPath⟩ :: t2, ?_, ?_⟩
                  · rw [ht2]
                    simp
                  · intro e he
                    rcases List.mem_cons.mp he with he | he
                    · subst he
                      exact ⟨⟨range, version⟩, List.mem_cons_self _ _, rfl⟩
                    · obtain ⟨pl, hpl, hv⟩ := he2 e he
                      exact ⟨pl, List.mem_cons_of_mem _ hpl, hv⟩

/-- C1 (confirmed): along every occurrence processed by the plan
builder, every recorded placement — an appended entry's
(range, version) pair, or the (range, root version) pair of a
root-deduplicated occurrence, whose satisfaction is checked before the
dedup return — satisfies its range, and every entry the call appends
to the plan carries a recorded placement's version.  So every entry's
version satisfies the version range through which that occurrence was
reached, root dedups included. -/
theorem C1_placed_versions_satisfy_reached_ranges
    (graph : List (String × PackageNode)) (cache : List (String × PackageMetadata))
    (optimals : List (String × Version)) (fuel : Nat) (name : String) (range : VRange)
    (parentPath : Option ParentPath) (st : PlanState) (out : PlanState × List Placement)
    (h : processDependencyAux graph cache optimals fuel name range parentPath st = .ok out) :
    (∀ pl ∈ out.2, semverSatisfies pl.version pl.range = true) ∧
      ∃ tail, out.1.plan = st.plan ++ tail ∧
        ∀ e ∈ tail, ∃ pl ∈ out.2,
          pl.version = e.version ∧ semverSatisfies e.version pl.range = true := by
  obtain ⟨hlog, t, ht, he⟩ := processDependencyAux_ext graph cache optimals _ _ _ _ _ _ h
  refine ⟨hlog, t, ht, ?_⟩
  intro e hee
  obtain ⟨pl, hpl, hv⟩ := he e hee
  exact ⟨pl, hpl, hv, hv ▸ hlog pl hpl⟩

/-- C1 (witness): the one-package run `a@^1.0.0` with optimal `1.1.0`
places a root entry whose recorded placement satisfies `^1.0.0`. -/
theorem C1_witness :
    (∀ pl ∈ [(⟨.caret ⟨1, 0, 0⟩, ⟨1, 1, 0⟩⟩ : Placement)],
      semverSatisfies pl.version pl.range = true) ∧
      ∃ tail,
        (PlanState.mk [("a", ⟨1, 1, 0⟩)] [⟨"a", ⟨1, 1, 0⟩, none⟩]).plan =
          (PlanState.mk [] []).plan ++ tail ∧
        ∀ e ∈ tail, ∃ pl ∈ [(⟨.caret ⟨1, 0, 0⟩, ⟨1, 1, 0⟩⟩ : Placement)],
          pl.version = e.version ∧ semverSatisfies e.version pl.range = true :=
  C1_placed_versions_satisfy_reached_ranges graphW cacheW optimalsW 2 "a"
    (.caret ⟨1, 0, 0⟩) none ⟨[], []⟩
    (⟨[("a", ⟨1, 1, 0⟩)], [⟨"a", ⟨1, 1, 0⟩, none⟩]⟩, [⟨.caret ⟨1, 0, 0⟩, ⟨1, 1, 0⟩⟩])
    (by decide)

/-! ### Root-placement invariants (claims C2 and C4) -/

theorem countParentless_single_root (name : String) (v : Version) (n : String) :
    countParentless [⟨name, v, none⟩] n = if n = name then 1 else 0 := by
  by_cases h : name = n
  · simp [countParentless, h]
  · have h2 : ¬n = name := fun hh => h hh.symm
    simp [countParentless, h, h2]

theorem countParentless_single_nested (name : String) (v : Version) (p : ParentPath)
    (n : String) : countParentless [⟨name, v, some p⟩] n = 0 := by
  simp [countParentless]

theorem isConflictAt_false_of_rootsMatch {optimals : List (String × Version)}
    {st : PlanState} {name : String} {ov : Version}
    (hroots : RootsMatchOptimals optimals st) (hopt : alookup optimals name = some ov) :
    isConflictAt st.rootPackages name ov = false := by
  unfold isConflictAt
  cases hr : alookup st.rootPackages name with
  | none => rfl
  | some v =>
    have := hroots name v hr
    rw [hopt] at this
    simp only [Option.some.injEq] at this
    subst this
    simp

theorem rootPackages_none_of_ndedup {optimals : List (String × Version)}
    {st : PlanState} {name : String} {ov : Version}
    (hroots : RootsMatchOptimals optimals st) (hopt : alookup optimals name = some ov)
    (hndedup : ¬alookup st.rootPackages name = some ov) :
    alookup st.rootPackages name = none := by
  cases hr : alookup st.rootPackages name with
  | none => rfl
  | some v =>
    have := hroots name v hr
    rw [hopt] at this
    simp only [Option.some.injEq] at this
    subst this
    exact absurd hr hndedup

theorem pushOptimal_inv {optimals : List (String × Version)} {st : PlanState}
    {name : String} {ov : Version}
    (hroots : RootsMatchOptimals optimals st) (hopt : alookup optimals name = some ov)
    (hndedup : ¬alookup st.rootPackages name = some ov) (p : Option ParentPath) :
    RootsMatchOptimals optimals (pushOptimal st name ov p) ∧
      (RootEntriesMatchTable st → RootEntriesMatchTable (pushOptimal st name ov p)) := by
  have hconf : isConflictAt st.rootPackages name ov = false :=
    isConflictAt_false_of_rootsMatch hroots hopt
  have hnone : alookup st.rootPackages name = none :=
    rootPackages_none_of_ndedup hroots hopt hndedup
  unfold pushOptimal
  rw [hconf]
  simp only [Bool.false_eq_true, if_false]
  constructor
  · intro n v hv
    simp only at hv
    rw [alookup_recordSet] at hv
    by_cases hn : n = name
    · subst hn
      rw [if_pos rfl] at hv
      simp only [Option.some.injEq] at hv
      subst hv
      exact hopt
    · rw [if_neg hn] at hv
      exact hroots n v hv
  · intro hre n
    simp only
    rw [countParentless_append, alookup_recordSet]
    by_cases hn : n = name
    · subst hn
      rw [if_pos rfl, countParentless_single_root, if_pos rfl]
      have := hre n
      rw [hnone] at this
      simp only [Option.isSome_none, Bool.false_eq_true, if_false] at this
      rw [this]
      simp
    · rw [if_neg hn, countParentless_single_root, if_neg hn]
      have := hre n
      rw [this]
      simp

theorem planDepsLoopG_inv {optimals : List (String × Version)}
    {step : String → VRange → Option ParentPath → PlanState →
      Except PlanErr (PlanState × List Placement)}
    (hstep : ∀ n r p s o, step n r p s = .ok o →
      RootsMatchOptimals optimals s →
      RootsMatchOptimals optimals o.1 ∧
        (RootEntriesMatchTable s →
          (p = none → ∃ ov, alookup optimals n = some ov ∧ semverSatisfies ov r = true) →
          RootEntriesMatchTable o.1)) :
    ∀ (deps : List (String × List VRange)) (name : String) (parent : ParentPath)
      (st : PlanState) (out : PlanState × List Placement),
      planDepsLoopG step name parent deps st = .ok out →
      RootsMatchOptimals optimals st →
      RootsMatchOptimals optimals out.1 ∧
        (RootEntriesMatchTable st → RootEntriesMatchTable out.1) := by
  intro deps
  induction deps with
  | nil =>
    intro name parent st out h hroots
    unfold planDepsLoopG at h
    simp only [Except.ok.injEq] at h
    subst h
    exact ⟨hroots, fun hre => hre⟩
  | cons d rest ih =>
    intro name parent st out h hroots
    obtain ⟨depName, depRanges⟩ := d
    cases depRanges with
    | nil =>
      unfold planDepsLoopG at h
      simp at h
    | cons r rs =>
      unfold planDepsLoopG at h
      split at h
      next => simp at h
      next r2 rs2 hcons =>
        split at h
        next => simp at h
        next st1 log1 heq =>
          split at h
          next => simp at h
          next st2 log2 heq2 =>
            simp only [Except.ok.injEq] at h
            subst h
            obtain ⟨hr1, he1⟩ := hstep _ _ _ _ _ heq hroots
            obtain ⟨hr2, he2⟩ := ih _ _ _ _ heq2 hr1
            refine ⟨hr2, fun hre => he2 (he1 hre fun hh => (Option.noConfusion hh))⟩

theorem planDepsLoopM_inv {optimals : List (String × Version)}
    {step : String → VRange → Option ParentPath → PlanState →
      Except PlanErr (PlanState × List Placement)}
    (hstep : ∀ n r p s o, step n r p s = .ok o →
      RootsMatchOptimals optimals s →
      RootsMatchOptimals optimals o.1 ∧
        (RootEntriesMatchTable s →
          (p = none → ∃ ov, alookup optimals n = some ov ∧ semverSatisfies ov r = true) →
          RootEntriesMatchTable o.1)) :
    ∀ (deps : List (String × VRange)) (parent : ParentPath)
      (st : PlanState) (out : PlanState × List Placement),
      planDepsLoopM step parent deps st = .ok out →
      RootsMatchOptimals optimals st →
      RootsMatchOptimals optimals out.1 ∧
        (RootEntriesMatchTable st → RootEntriesMatchTable out.1) := by
  intro deps
  induction deps with
  | nil =>
    intro parent st out h hroots
    unfold planDepsLoopM at h
    simp only [Except.ok.injEq] at h
    subst h
    exact ⟨hroots, fun hre => hre⟩
  | cons d rest ih =>
    intro parent st out h hroots
    obtain ⟨depName, depRange⟩ := d
    unfold planDepsLoopM at h
    split at h
    next => simp at h
    next st1 log1 heq =>
      split at h
      next => simp at h
      next st2 log2 heq2 =>
        simp only [Except.ok.injEq] at h
        subst h
        obtain ⟨hr1, he1⟩ := hstep _ _ _ _ _ heq hroots
        obtain ⟨hr2, he2⟩ := ih _ _ _ heq2 hr1
        refine ⟨hr2, fun hre => he2 (he1 hre fun hh => (Option.noConfusion hh))⟩

theorem processDependencyAux_inv (graph : List (String × PackageNode))
    (cache : List (String × PackageMetadata)) (optimals : List (String × Version)) :
    ∀ (fuel : Nat) (name : String) (range : VRange) (parentPath : Option ParentPath)
      (st : PlanState) (out : PlanState × List Placement),
      processDependencyAux graph cache optimals fuel name range parentPath st = .ok out →
      RootsMatchOptimals optimals st →
      RootsMatchOptimals optimals out.1 ∧
        (RootEntriesMatchTable st →
          (parentPath = none →
            ∃ ov, alookup optimals name = some ov ∧ semverSatisfies ov range = true) →
          RootEntriesMatchTable out.1) := by
  intro fuel
  induction fuel with
  | zero =>
    intro name range parentPath st out h hroots
    unfold processDependencyAux at h
    simp at h
  | succ f ih =>
    intro name range parentPath st out h hroots
    unfold processDependencyAux at h
    split at h
    next => simp at h
    next optimalVersion hopt =>
      split at h
      next hsat =>
        split at h
        next hdedup =>
          simp only [Except.ok.injEq] at h
          subst h
          exact ⟨hroots, fun hre _ => hre⟩
        next hndedup =>
          split at h
          next => simp at h
          next packageNode hnode =>
            split at h
            next heq => simp at h
            next st2 log2 heq =>
              simp only [Except.ok.injEq] at h
              subst h
              obtain ⟨hpr, hpe⟩ := pushOptimal_inv hroots hopt hndedup parentPath
              obtain ⟨hr2, he2⟩ := planDepsLoopG_inv
                (fun n r p s o hh hs => ih n r p s o hh hs) _ _ _ _ _ heq hpr
              exact ⟨hr2, fun hre _ => he2 (hpe hre)⟩
      next hnsat =>
        split at h
        next => simp at h
        next metadata hmeta =>
          split at h
          next => simp at h
          next version hmax =>
            split at h
            next => simp at h
            next packageJson hvd =>
              split at h
              next heq => simp at h
              next st2 log2 heq =>
                simp only [Except.ok.injEq] at h
                subst h
                have hroots1 : RootsMatchOptimals optimals
                    { st with plan := st.plan ++ [⟨name, version, parentPath⟩] } := by
                  intro n v hv
                  exact hroots n v hv
                obtain ⟨hr2, he2⟩ := planDepsLoopM_inv
                  (fun n r p s o hh hs => ih n r p s o hh hs) _ _ _ _ heq hroots1
                refine ⟨hr2, fun hre hpath => he2 ?_⟩
                have hsome : parentPath ≠ none := by
                  intro hh
                  obtain ⟨ov, hov, hovs⟩ := hpath hh
                  rw [hopt] at hov
                  simp only [Option.some.injEq] at hov
                  subst hov
                  rw [hovs] at hnsat
                  exact hnsat rfl
                obtain ⟨p, hp⟩ := Option.ne_none_iff_exists'.mp hsome
                subst hp
                intro n
                simp only
                rw [countParentless_append, countParentless_single_nested]
                simpa using hre n

theorem processDependency_ok {graph : List (String × PackageNode)}
    {cache : List (String × PackageMetadata)} {optimals : List (String × Version)}
    {fuel : Nat} {name : String} {range : VRange} {p : Option ParentPath}
    {st st' : PlanState}
    (h : processDependency graph cache optimals fuel name range p st = .ok st') :
    ∃ log, processDependencyAux graph cache optimals fuel name range p st =
      .ok (st', log) := by
  unfold processDependency at h
  cases haux : processDependencyAux graph cache optimals fuel name range p st with
  | error e =>
    rw [haux] at h
    simp [Except.map] at h
  | ok out =>
    obtain ⟨s2, l2⟩ := out
    rw [haux] at h
    simp [Except.map] at h
    subst h
    exact ⟨l2, rfl⟩

theorem planTopLoop_inv (graph : List (String × PackageNode))
    (cache : List (String × PackageMetadata)) (optimals : List (String × Version))
    (fuel : Nat) :
    ∀ (topLevel : List (String × VRange)) (st : PlanState) (out : PlanState),
      planTopLoop graph cache optimals fuel topLevel st = .ok out →
      RootsMatchOptimals optimals st → RootEntriesMatchTable st →
      (∀ nr ∈ topLevel,
        ∃ ov, alookup optimals nr.1 = some ov ∧ semverSatisfies ov nr.2 = true) →
      RootsMatchOptimals optimals out ∧ RootEntriesMatchTable out := by
  intro topLevel
  induction topLevel with
  | nil =>
    intro st out h hroots hre _
    unfold planTopLoop at h
    simp only [Except.ok.injEq] at h
    subst h
    exact ⟨hroots, hre⟩
  | cons nr rest ih =>
    intro st out h hroots hre htop
    obtain ⟨name, range⟩ := nr
    unfold planTopLoop at h
    split at h
    next => simp at h
    next st1 heq =>
      obtain ⟨log, haux⟩ := processDependency_ok heq
      obtain ⟨hr1, he1⟩ :=
        processDependencyAux_inv graph cache optimals fuel name range none st
          (st1, log) haux hroots
      have hre1 : RootEntriesMatchTable st1 :=
        he1 hre (fun _ => htop (name, range) (List.mem_cons_self _ _))
      exact ih st1 out h hr1 hre1
        (fun nr hnr => htop nr (List.mem_cons_of_mem _ hnr))

/-- C2 (counterexample).  The claim asserts at most one parentless
entry per package name for every input.  The `reg2`/`top2` run places
`shared@1.0.0` parentless through the range-specific override branch
(declared `shared@^1.0.0` is not satisfied by the optimal `2.0.0`) and
later hoists `shared@2.0.0` to the root table, yielding two parentless
`shared` entries in one plan. -/
theorem C2_counterexample :
    constructInstallationPlan none reg2 top2 noIntegrity 4 = .ok plan2 ∧
      countParentless plan2 "shared" = 2 := by decide

/-- C2 (amended): at most one root-level entry exists per package name
provided every declared top-level dependency's range is satisfied by
that package's optimal version (the condition under which no top-level
occurrence reaches the override branch, whose parentless output the
counterexample exhibits); nested entries are unconstrained. -/
theorem C2_at_most_one_root_entry (graph : List (String × PackageNode))
    (cache : List (String × PackageMetadata)) (optimals : List (String × Version))
    (topLevel : List (String × VRange)) (fuel : Nat)
    (plan : List DependencyInstallation)
    (htop : ∀ nr ∈ topLevel,
      ∃ ov, alookup optimals nr.1 = some ov ∧ semverSatisfies ov nr.2 = true)
    (h : buildInstallationPlan graph cache optimals topLevel fuel = .ok plan) :
    ∀ name, countParentless plan name ≤ 1 := by
  unfold buildInstallationPlan at h
  split at h
  next => simp at h
  next st heq =>
    simp only [Except.ok.injEq] at h
    subst h
    have hinit_roots : RootsMatchOptimals optimals ⟨[], []⟩ := by
      intro n v hv
      simp [alookup] at hv
    have hinit_re : RootEntriesMatchTable ⟨[], []⟩ := by
      intro n
      simp [countParentless, alookup]
    obtain ⟨_, hre⟩ :=
      planTopLoop_inv graph cache optimals fuel topLevel ⟨[], []⟩ st heq
        hinit_roots hinit_re htop
    intro name
    rw [hre name]
    split
    · exact Nat.le_refl 1
    · exact Nat.zero_le 1

/-- C2 (witness): the one-package run `a@^1.0.0` (optimal `1.1.0`
satisfies the declared range) has at most one root entry per name. -/
theorem C2_witness : countParentless [⟨"a", ⟨1, 1, 0⟩, none⟩] "a" ≤ 1 :=
  C2_at_most_one_root_entry graphW cacheW optimalsW [("a", .caret ⟨1, 0, 0⟩)] 2
    [⟨"a", ⟨1, 1, 0⟩, none⟩]
    (by
      intro nr hnr
      rw [List.mem_singleton] at hnr
      subst hnr
      exact ⟨⟨1, 1, 0⟩, rfl, by decide⟩)
    (by decide) "a"

/-- C4 (counterexample).  The claim asserts an override-branch entry is
never a root-level placement, even for a declared top-level occurrence.
In the `reg2`/`top2` run the declared `shared@^1.0.0` is handled by the
override branch (the optimal `2.0.0` fails the range) and the appended
entry `shared@1.0.0` carries no parent path: a root-level placement. -/
theorem C4_counterexample :
    constructInstallationPlan none reg2 top2 noIntegrity 4 = .ok plan2 ∧
      plan2.head? = some ⟨"shared", ⟨1, 0, 0⟩, none⟩ ∧
      findOptimalVersion [⟨1, 0, 0⟩, ⟨2, 0, 0⟩] [.caret ⟨1, 0, 0⟩, .caret ⟨2, 0, 0⟩]
          = some ⟨2, 0, 0⟩ ∧
      semverSatisfies ⟨2, 0, 0⟩ (.caret ⟨1, 0, 0⟩) = false := by decide

/-- C4 (amended): when the optimal version fails the consumer's range,
the plan builder resolves the range directly against the package's
available versions and appends that resolved version at the current
parent path — parentless exactly when the occurrence is a declared
top-level one — and the override version is never recorded in the root
table (the table only ever holds optimal versions). -/
theorem C4_override_installs_at_current_parent (graph : List (String × PackageNode))
    (cache : List (String × PackageMetadata)) (optimals : List (String × Version))
    (fuel : Nat) (name : String) (range : VRange) (parentPath : Option ParentPath)
    (st : PlanState) (out : PlanState × List Placement) (ov : Version)
    (hov : alookup optimals name = some ov)
    (hns : semverSatisfies ov range = false)
    (hok : processDependencyAux graph cache optimals fuel name range parentPath st = .ok out)
    (hroots : RootsMatchOptimals optimals st) :
    ∃ metadata version tail,
      alookup cache name = some metadata ∧
      maxSatisfying (metadata.versions.map Prod.fst) range = some version ∧
      semverSatisfies version range = true ∧ version ≠ ov ∧
      out.1.plan = st.plan ++ ⟨name, version, parentPath⟩ :: tail ∧
      ∀ w, alookup out.1.rootPackages name = some w → w = ov := by
  cases fuel with
  | zero =>
    unfold processDependencyAux at hok
    simp at hok
  | succ f =>
    unfold processDependencyAux at hok
    split at hok
    next => simp at hok
    next optimalVersion hopt =>
      rw [hov] at hopt
      simp only [Option.some.injEq] at hopt
      subst hopt
      split at hok
      next hsat =>
        rw [hns] at hsat
        simp at hsat
      next hnsat =>
        split at hok
        next => simp at hok
        next metadata hmeta =>
          split at hok
          next => simp at hok
          next version hmax =>
            split at hok
            next => simp at hok
            next packageJson hvd =>
              split at hok
              next => simp at hok
              next st2 log2 heq =>
                simp only [Except.ok.injEq] at hok
                subst hok
                have hvs : semverSatisfies version range = true := maxSatisfying_sat hmax
                have hneq : version ≠ ov := by
                  intro hh
                  rw [hh, hns] at hvs
                  simp at hvs
                obtain ⟨_, hext⟩ :=
                  planDepsLoopM_ext
                    (fun n r p s o hh =>
                      processDependencyAux_ext graph cache optimals f n r p s o hh)
                    _ _ _ _ heq
                obtain ⟨t2, ht2, _⟩ := hext
                have hroots1 : RootsMatchOptimals optimals
                    { st with plan := st.plan ++ [⟨name, version, parentPath⟩] } := by
                  intro n v hv
                  exact hroots n v hv
                obtain ⟨hr2, _⟩ :=
                  planDepsLoopM_inv
                    (fun n r p s o hh hs =>
                      processDependencyAux_inv graph cache optimals f n r p s o hh hs)
                    _ _ _ _ heq hroots1
                refine ⟨metadata, version, t2, hmeta, hmax, hvs, hneq, ?_, ?_⟩
                · rw [ht2]
                  simp
                · intro w hw
                  have := hr2 name w hw
                  rw [hov] at this
                  simp only [Option.some.injEq] at this
                  exact this.symm

/-- C4 (witness): on the `reg2` data, processing the occurrence
`shared@^1.0.0` below the parent path `consumer/node_modules` with the
optimal `2.0.0` resolves `1.0.0` by the override branch, nests it at
that parent path, and leaves it out of the root table. -/
theorem C4_witness :
    ∃ metadata version tail,
      alookup cache2 "shared" = some metadata ∧
      maxSatisfying (metadata.versions.map Prod.fst) (.caret ⟨1, 0, 0⟩) = some version ∧
      semverSatisfies version (.caret ⟨1, 0, 0⟩) = true ∧ version ≠ ⟨2, 0, 0⟩ ∧
      ((⟨⟨[], [⟨"shared", ⟨1, 0, 0⟩, some ["consumer", "node_modules"]⟩]⟩,
          [⟨.caret ⟨1, 0, 0⟩, ⟨1, 0, 0⟩⟩]⟩ :
            PlanState × List Placement).1.plan =
        (⟨[], []⟩ : PlanState).plan ++
          ⟨"shared", version, some ["consumer", "node_modules"]⟩ :: tail) ∧
      ∀ w,
        alookup (⟨⟨[], [⟨"shared", ⟨1, 0, 0⟩, some ["consumer", "node_modules"]⟩]⟩,
            [⟨.caret ⟨1, 0, 0⟩, ⟨1, 0, 0⟩⟩]⟩ :
              PlanState × List Placement).1.rootPackages "shared" = some w →
          w = ⟨2, 0, 0⟩ :=
  C4_override_installs_at_current_parent graph2 cache2 optimals2 1 "shared"
    (.caret ⟨1, 0, 0⟩) (some ["consumer", "node_modules"]) ⟨[], []⟩
    (⟨⟨[], [⟨"shared", ⟨1, 0, 0⟩, some ["consumer", "node_modules"]⟩]⟩,
      [⟨.caret ⟨1, 0, 0⟩, ⟨1, 0, 0⟩⟩]⟩) ⟨2, 0, 0⟩
    (by decide) (by decide) (by decide)
    (by
      intro n v hv
      simp [alookup] at hv)

/-! ### Claim C5: lock rejection does not trigger fresh resolution -/

/-- C5 (code bug).  `c5Lock` has no root record, one of the claimed
rejection conditions, and decode does reject it; but the caller
returns that "reject" empty plan as the installation plan instead of
performing the fresh resolution — which on the same inputs would have
installed `pkg-a@1.0.0` — contradicting the claim and the source's own
comments (`Return empty plan to trigger resolution from scratch`). -/
theorem C5_lock_reject_returns_empty_plan :
    alookup c5Lock.packages [] = none ∧
      constructInstallationPlan (some c5Lock) c5Registry c5Top noIntegrity 4 = .ok [] ∧
      constructInstallationPlan none c5Registry c5Top noIntegrity 4 =
        .ok [⟨"pkg-a", ⟨1, 0, 0⟩, none⟩] := by decide

/-! ### Claim C8: termination of requirement-graph construction -/

theorem fetchIntoCache_pres {registry : Registry}
    {cache cache1 : List (String × PackageMetadata)} {name : String}
    (h : fetchIntoCache registry cache name = .ok cache1)
    (hc : CacheFromReg registry cache) : CacheFromReg registry cache1 := by
  unfold fetchIntoCache at h
  split at h
  · simp only [Except.ok.injEq] at h
    subst h
    exact hc
  · split at h
    next => simp at h
    next meta hreg =>
      simp only [Except.ok.injEq] at h
      subst h
      intro n m hm
      rw [alookup_recordSet] at hm
      by_cases hn : n = name
      · rw [if_pos hn] at hm
        simp only [Option.some.injEq] at hm
        subst hm
        rw [hn]
        exact hreg
      · rw [if_neg hn] at hm
        exact hc n m hm

theorem fetchIntoCache_spec {registry : Registry}
    {cache : List (String × PackageMetadata)} {name : String} {meta : PackageMetadata}
    (hreg : alookup registry name = some meta) (hc : CacheFromReg registry cache) :
    ∃ cache1, fetchIntoCache registry cache name = .ok cache1 ∧
      alookup cache1 name = some meta ∧ CacheFromReg registry cache1 := by
  unfold fetchIntoCache
  cases hcc : alookup cache name with
  | some m =>
    have hm := hc name m hcc
    rw [hreg] at hm
    simp only [Option.some.injEq] at hm
    subst hm
    simp only [hcc, Option.isSome_some, if_true]
    exact ⟨cache, rfl, hcc, hc⟩
  | none =>
    simp only [hcc, Option.isSome_none, Bool.false_eq_true, if_false, hreg]
    refine ⟨recordSet cache name ⟨meta.versions⟩, rfl, ?_, ?_⟩
    · rw [alookup_recordSet, if_pos rfl]
    · intro n m hm
      rw [alookup_recordSet] at hm
      by_cases hn : n = name
      · rw [if_pos hn] at hm
        simp only [Option.some.injEq] at hm
        subst hm
        rw [hn]
        exact hreg
      · rw [if_neg hn] at hm
        exact hc n m hm

theorem buildDepsLoop_pres {registry : Registry}
    {step : String → VRange → GraphState → Except BuildErr GraphState}
    (hpres : ∀ n r s s', step n r s = .ok s' →
      CacheFromReg registry s.metadataCache → CacheFromReg registry s'.metadataCache) :
    ∀ (deps : List (String × VRange)) (name : String) (st st' : GraphState),
      buildDepsLoop step name deps st = .ok st' →
      CacheFromReg registry st.metadataCache → CacheFromReg registry st'.metadataCache := by
  intro deps
  induction deps with
  | nil =>
    intro name st st' h hc
    unfold buildDepsLoop at h
    simp only [Except.ok.injEq] at h
    subst h
    exact hc
  | cons d rest ih =>
    intro name st st' h hc
    obtain ⟨depName, depRange⟩ := d
    unfold buildDepsLoop at h
    split at h
    next => simp at h
    next st2 heq =>
      exact ih name _ st' h (hpres _ _ _ _ heq hc)

theorem buildDependencyGraph_pres (registry : Registry) :
    ∀ (fuel : Nat) (name : String) (range : VRange) (st st' : GraphState),
      buildDependencyGraph registry fuel name range st = .ok st' →
      CacheFromReg registry st.metadataCache → CacheFromReg registry st'.metadataCache := by
  intro fuel
  induction fuel with
  | zero =>
    intro name range st st' h hc
    unfold buildDependencyGraph at h
    simp at h
  | succ f ih =>
    intro name range st st' h hc
    unfold buildDependencyGraph at h
    split at h
    next => simp at h
    next cache1 hfetch =>
      have hc1 : CacheFromReg registry cache1 := fetchIntoCache_pres hfetch hc
      split at h
      next => simp at h
      next metadata hmeta =>
        split at h
        next => simp at h
        next resolvedVersion hmax =>
          split at h
          next => simp at h
          next packageJson hvd =>
            exact buildDepsLoop_pres (fun n r s s' hh hcs => ih n r s s' hh hcs)
              _ _ _ _ h hc1

theorem buildDepsLoop_not_outOfFuel {registry : Registry} {P : String → Prop}
    {step : String → VRange → GraphState → Except BuildErr GraphState}
    (hnf : ∀ n r s, P n → CacheFromReg registry s.metadataCache →
      step n r s ≠ .error .outOfFuel)
    (hpres : ∀ n r s s', step n r s = .ok s' →
      CacheFromReg registry s.metadataCache → CacheFromReg registry s'.metadataCache) :
    ∀ (deps : List (String × VRange)) (name : String) (st : GraphState),
      CacheFromReg registry st.metadataCache → (∀ dr ∈ deps, P dr.1) →
      buildDepsLoop step name deps st ≠ .error .outOfFuel := by
  intro deps
  induction deps with
  | nil =>
    intro name st hc hP h
    unfold buildDepsLoop at h
    simp at h
  | cons d rest ih =>
    intro name st hc hP h
    obtain ⟨depName, depRange⟩ := d
    unfold buildDepsLoop at h
    split at h
    next e heq =>
      simp only [Except.error.injEq] at h
      subst h
      exact hnf depName depRange
        { st with packageGraph := updateNodeDep st.packageGraph name depName depRange }
        (hP (depName, depRange) (List.mem_cons_self _ _)) hc heq
    next st2 heq =>
      exact ih name st2 (hpres _ _ _ _ heq hc)
        (fun dr hdr => hP dr (List.mem_cons_of_mem _ hdr)) h

theorem buildDependencyGraph_not_outOfFuel {registry : Registry} {rank : String → Nat}
    (hrank : RankDecreasing registry rank) :
    ∀ (fuel : Nat) (name : String) (range : VRange) (st : GraphState),
      CacheFromReg registry st.metadataCache → rank name < fuel →
      buildDependencyGraph registry fuel name range st ≠ .error .outOfFuel := by
  intro fuel
  induction fuel with
  | zero =>
    intro name range st _ hlt
    omega
  | succ f ih =>
    intro name range st hc hlt h
    unfold buildDependencyGraph at h
    split at h
    next e hfetch =>
      simp only [Except.error.injEq] at h
      subst h
      unfold fetchIntoCache at hfetch
      split at hfetch
      · simp at hfetch
      · split at hfetch
        next => simp at hfetch
        next => simp at hfetch
    next cache1 hfetch =>
      have hc1 : CacheFromReg registry cache1 := fetchIntoCache_pres hfetch hc
      split at h
      next => simp at h
      next metadata hmeta =>
        split at h
        next => simp at h
        next resolvedVersion hmax =>
          split at h
          next => simp at h
          next packageJson hvd =>
            have hregname : alookup registry name = some metadata := hc1 name metadata hmeta
            have hmem : (name, metadata) ∈ registry := alookup_mem hregname
            have hvmem : (resolvedVersion, packageJson) ∈ metadata.versions :=
              alookup_mem hvd
            have hdeps : ∀ dr ∈ packageJson.dependencies, rank dr.1 < f := by
              intro dr hdr
              have h1 := hrank (name, metadata) hmem (resolvedVersion, packageJson)
                hvmem dr hdr
              have h2 : rank dr.1 < rank name := h1
              omega
            exact buildDepsLoop_not_outOfFuel
              (fun n r s hPn hcs hh => ih n r s hcs hPn hh)
              (fun n r s s' hh hcs => buildDependencyGraph_pres registry f n r s s' hh hcs)
              packageJson.dependencies name _ hc1 hdeps h

theorem cyc_diverges :
    ∀ (fuel : Nat) (st : GraphState), CacheFromReg cycReg st.metadataCache →
      buildDependencyGraph cycReg fuel "cyc-a" (.exact ⟨1, 0, 0⟩) st
          = .error .outOfFuel ∧
        buildDependencyGraph cycReg fuel "cyc-b" (.exact ⟨1, 0, 0⟩) st
          = .error .outOfFuel := by
  have hstep : ∀ (f : Nat) (name other : String),
      alookup cycReg name = some (cycMeta other) →
      (∀ st' : GraphState, CacheFromReg cycReg st'.metadataCache →
        buildDependencyGraph cycReg f other (.exact ⟨1, 0, 0⟩) st' = .error .outOfFuel) →
      ∀ st : GraphState, CacheFromReg cycReg st.metadataCache →
        buildDependencyGraph cycReg (f + 1) name (.exact ⟨1, 0, 0⟩) st
          = .error .outOfFuel := by
    intro f name other hreg hother st hc
    obtain ⟨cache1, hfetch, hlook, hc1⟩ := fetchIntoCache_spec hreg hc
    unfold buildDependencyGraph
    rw [hfetch]
    simp only
    rw [hlook]
    simp only
    have hmax : maxSatisfying ((cycMeta other).versions.map Prod.fst) (.exact ⟨1, 0, 0⟩)
        = some ⟨1, 0, 0⟩ := rfl
    rw [hmax]
    simp only
    have hvd : alookup (cycMeta other).versions ⟨1, 0, 0⟩
        = some ⟨[(other, .exact ⟨1, 0, 0⟩)]⟩ := by
      simp [cycMeta, alookup]
    rw [hvd]
    simp only
    unfold buildDepsLoop
    rw [hother _ (by exact hc1)]
  intro fuel
  induction fuel with
  | zero =>
    intro st hc
    exact ⟨rfl, rfl⟩
  | succ f ih =>
    intro st hc
    constructor
    · exact hstep f "cyc-a" "cyc-b" rfl (fun st' hc' => (ih st' hc').2) st hc
    · exact hstep f "cyc-b" "cyc-a" rfl (fun st' hc' => (ih st' hc').1) st hc

/-- C8 (confirmed): requirement-graph construction terminates whenever
the registry's dependency relation is acyclic — witnessed by a rank
function every dependency edge strictly decreases — in the sense that
fuel exceeding the start name's rank is never exhausted; and there is
indeed no cycle guard: on the two-package circular registry `cycReg`
the recursion exhausts every amount of fuel. -/
theorem C8_graph_construction_terminates_iff_acyclic :
    (∀ (registry : Registry) (rank : String → Nat), RankDecreasing registry rank →
      ∀ (fuel : Nat) (name : String) (range : VRange) (st : GraphState),
        CacheFromReg registry st.metadataCache → rank name < fuel →
        buildDependencyGraph registry fuel name range st ≠ .error .outOfFuel) ∧
      ∀ (fuel : Nat) (st : GraphState), CacheFromReg cycReg st.metadataCache →
        buildDependencyGraph cycReg fuel "cyc-a" (.exact ⟨1, 0, 0⟩) st
          = .error .outOfFuel :=
  ⟨fun _ rank hrank fuel name range st hc hlt =>
      buildDependencyGraph_not_outOfFuel hrank fuel name range st hc hlt,
    fun fuel st hc => (cyc_diverges fuel st hc).1⟩

/-- C8 (witness): on the acyclic `linReg` with rank `leaf ↦ 0`,
`top ↦ 1`, fuel `2` suffices for the whole build from the empty state,
while on the circular `cycReg` fuel `5` (like any fuel) is exhausted. -/
theorem C8_witness :
    buildDependencyGraph linReg 2 "top" (.caret ⟨1, 0, 0⟩) ⟨[], []⟩
        ≠ .error .outOfFuel ∧
      buildDependencyGraph cycReg 5 "cyc-a" (.exact ⟨1, 0, 0⟩) ⟨[], []⟩
        = .error .outOfFuel :=
  ⟨C8_graph_construction_terminates_iff_acyclic.1 linReg linRank
      (by unfold RankDecreasing; decide) 2 "top"
      (.caret ⟨1, 0, 0⟩) ⟨[], []⟩ (by intro n m hm; simp [alookup] at hm) (by decide),
    C8_graph_construction_terminates_iff_acyclic.2 5 ⟨[], []⟩
      (by intro n m hm; simp [alookup] at hm)⟩

/-! ### Claim C6: lock-file round trip -/

theorem alookup_append_left_none {α β : Type} [DecidableEq α]
    {l1 : List (α × β)} {k : α} (l2 : List (α × β)) (h : alookup l1 k = none) :
    alookup (l1 ++ l2) k = alookup l2 k := by
  induction l1 with
  | nil => rfl
  | cons p rest ih =>
    obtain ⟨pk, pv⟩ := p
    by_cases hk : k = pk
    · subst hk
      simp [alookup] at h
    · simp [alookup, hk] at h ⊢
      exact ih h

theorem alookup_isSome_of_mem {α β : Type} [DecidableEq α]
    {l : List (α × β)} {k : α} {v : β} (h : (k, v) ∈ l) :
    (alookup l k).isSome = true := by
  induction l with
  | nil => cases h
  | cons p rest ih =>
    obtain ⟨pk, pv⟩ := p
    by_cases hk : k = pk
    · simp [alookup, hk]
    · rcases List.mem_cons.mp h with h | h
      · exact absurd (congrArg Prod.fst h) hk
      · simp [alookup, hk]
        exact ih h

theorem pathKey_eq_keyOfPair (e : DependencyInstallation) :
    pathKey e = keyOfPair (e.name, e.parentDirectory) := by
  obtain ⟨n, v, p⟩ := e
  cases p <;> rfl

theorem pathKey_ne_nil (e : DependencyInstallation) : pathKey e ≠ [] := by
  obtain ⟨n, v, p⟩ := e
  cases p <;> simp [pathKey]

theorem pathKey_isEmpty_false (e : DependencyInstallation) :
    (pathKey e).isEmpty = false := by
  obtain ⟨n, v, p⟩ := e
  cases p <;> rfl

theorem keyOfPair_inj {x y : String × Option ParentPath}
    (hx : x.2 ≠ some []) (hy : y.2 ≠ some [])
    (h : keyOfPair x = keyOfPair y) : x = y := by
  obtain ⟨n1, p1⟩ := x
  obtain ⟨n2, p2⟩ := y
  cases p1 with
  | none =>
    cases p2 with
    | none =>
      simp [keyOfPair] at h
      simp [h]
    | some q2 =>
      have h' : ([n1] : List String) = q2 ++ [n2] := congrArg List.tail h
      cases q2 with
      | nil => exact absurd rfl hy
      | cons a as =>
        have hl := congrArg List.length h'
        simp at hl
  | some q1 =>
    cases p2 with
    | none =>
      have h' : q1 ++ [n1] = ([n2] : List String) := congrArg List.tail h
      cases q1 with
      | nil => exact absurd rfl hx
      | cons a as =>
        have hl := congrArg List.length h'
        simp at hl
    | some q2 =>
      have h' : q1 ++ [n1] = q2 ++ [n2] := congrArg List.tail h
      obtain ⟨hq, hn⟩ := List.append_inj' h' rfl
      simp at hn
      simp [hq, hn]

theorem lastSeg_last (x : String) (l : List String) (a : String) :
    lastSeg x (l ++ [a]) = a := by
  induction l generalizing x with
  | nil => rfl
  | cons y ys ih => exact ih y

theorem parseLockPath_cons_cons (a b : String) (rest : List String) :
    parseLockPath (a :: b :: rest) =
      (lastSeg a (b :: rest),
       if rest.isEmpty then none else some ((b :: rest).dropLast)) := rfl

theorem parseLockPath_pathKey (e : DependencyInstallation)
    (hp : e.parentDirectory ≠ some []) :
    parseLockPath (pathKey e) = (e.name, e.parentDirectory) := by
  obtain ⟨n, v, p⟩ := e
  cases p with
  | none => rfl
  | some q =>
    cases q with
    | nil => simp at hp
    | cons q0 qs =>
      have hshape : pathKey ⟨n, v, some (q0 :: qs)⟩
          = nodeModulesDir :: q0 :: (qs ++ [n]) := by
        simp [pathKey]
      rw [hshape, parseLockPath_cons_cons]
      have hcc : q0 :: (qs ++ [n]) = (q0 :: qs) ++ [n] := by simp
      rw [hcc, lastSeg_last, List.dropLast_concat]
      have hne : (qs ++ [n]).isEmpty = false := by cases qs <;> rfl
      rw [hne]
      simp

theorem resolvedTop_isSome {topLevel : List (String × VRange)} :
    ∀ (plan : List DependencyInstallation) (acc : List (String × VRange)) (n : String),
      ((alookup acc n).isSome = true ∨
        ((∃ e ∈ plan, e.name = n ∧ e.parentDirectory = none) ∧
          (alookup topLevel n).isSome = true)) →
      (alookup (plan.foldl (resolvedTopStep topLevel) acc) n).isSome = true := by
  intro plan
  induction plan with
  | nil =>
    intro acc n h
    rcases h with h | ⟨⟨e, he, _⟩, _⟩
    · exact h
    · cases he
  | cons e rest ih =>
    intro acc n h
    simp only [List.foldl_cons]
    apply ih
    rcases h with h | ⟨⟨e', he', hprops⟩, htl⟩
    · left
      unfold resolvedTopStep
      split
      · rw [alookup_recordSet]
        by_cases hn : n = e.name
        · rw [if_pos hn]
          rfl
        · rw [if_neg hn]
          exact h
      · exact h
    · rcases List.mem_cons.mp he' with he' | he'
      · subst he'
        left
        unfold resolvedTopStep
        rw [if_pos ⟨hprops.2, by rw [hprops.1]; exact htl⟩, alookup_recordSet,
          if_pos hprops.1.symm]
        rfl
      · right
        exact ⟨⟨e', he', hprops⟩, htl⟩

theorem lockPackagesLoop_spec (cache : List (String × PackageMetadata))
    (integ : String → Version → String) :
    ∀ (plan : List DependencyInstallation) (pkgs : List (ParentPath × PackageLockEntry)),
      (∀ e ∈ plan,
        ((alookup cache e.name).bind fun m => alookup m.versions e.version).isSome = true) →
      (∀ e ∈ plan, alookup pkgs (pathKey e) = none) →
      (plan.map pathKey).Nodup →
      ∃ entries, lockPackagesLoop cache integ plan pkgs = .ok (pkgs ++ entries) ∧
        List.Forall₂
          (fun (pe : ParentPath × PackageLockEntry) (e : DependencyInstallation) =>
            pe.1 = pathKey e ∧ pe.2.version = e.version)
          entries plan := by
  intro plan
  induction plan with
  | nil =>
    intro pkgs _ _ _
    exact ⟨[], by simp [lockPackagesLoop], List.Forall₂.nil⟩
  | cons e rest ih =>
    intro pkgs hmeta hfresh hnodup
    have hm := hmeta e (List.mem_cons_self _ _)
    cases hc : alookup cache e.name with
    | none =>
      rw [hc] at hm
      simp at hm
    | some meta =>
      cases hv : alookup meta.versions e.version with
      | none =>
        rw [hc] at hm
        simp [Option.bind, hv] at hm
      | some vd =>
        have hkey : alookup pkgs (pathKey e) = none := hfresh e (List.mem_cons_self _ _)
        have hnd := List.nodup_cons.mp hnodup
        have hfresh' : ∀ e' ∈ rest,
            alookup (pkgs ++ [(pathKey e,
              ({ version := e.version,
                 resolved := some (resolvedUrl e.name e.version),
                 integrity := some (integ e.name e.version),
                 dependencies := some vd.dependencies } : PackageLockEntry))])
              (pathKey e') = none := by
          intro e' he'
          rw [alookup_append_left_none _ (hfresh e' (List.mem_cons_of_mem _ he'))]
          have hne : pathKey e' ≠ pathKey e := by
            intro hh
            exact hnd.1 (hh ▸ List.mem_map_of_mem pathKey he')
          simp [alookup, hne]
        obtain ⟨entries, hloop, hfa⟩ :=
          ih (pkgs ++ [(pathKey e, _)])
            (fun e' he' => hmeta e' (List.mem_cons_of_mem _ he')) hfresh' hnd.2
        refine ⟨(pathKey e,
          { version := e.version,
            resolved := some (resolvedUrl e.name e.version),
            integrity := some (integ e.name e.version),
            dependencies := some vd.dependencies }) :: entries, ?_,
          List.Forall₂.cons ⟨rfl, rfl⟩ hfa⟩
        unfold lockPackagesLoop
        simp only [hc, hv]
        rw [recordSet_append_of_none _ hkey, hloop, List.append_assoc]
        rfl

theorem decode_entries_map :
    ∀ {entries : List (ParentPath × PackageLockEntry)}
      {plan : List DependencyInstallation},
      List.Forall₂
          (fun (pe : ParentPath × PackageLockEntry) (e : DependencyInstallation) =>
            pe.1 = pathKey e ∧ pe.2.version = e.version)
          entries plan →
      (∀ e ∈ plan, e.parentDirectory ≠ some ([] : ParentPath)) →
      entries.map
          (fun pe =>
            ({ name := (parseLockPath pe.1).1, version := pe.2.version,
               parentDirectory := (parseLockPath pe.1).2 } : DependencyInstallation))
        = plan := by
  intro entries plan hfa
  induction hfa with
  | nil => intro _; rfl
  | cons hr htail ih =>
    intro hpar
    simp only [List.map_cons]
    rw [ih fun e he => hpar e (List.mem_cons_of_mem _ he)]
    obtain ⟨h1, h2⟩ := hr
    rw [h1, h2, parseLockPath_pathKey _ (hpar _ (List.mem_cons_self _ _))]

theorem decode_entries_filter :
    ∀ {entries : List (ParentPath × PackageLockEntry)}
      {plan : List DependencyInstallation},
      List.Forall₂
          (fun (pe : ParentPath × PackageLockEntry) (e : DependencyInstallation) =>
            pe.1 = pathKey e ∧ pe.2.version = e.version)
          entries plan →
      entries.filter (fun pe => !pe.1.isEmpty) = entries := by
  intro entries plan hfa
  induction hfa with
  | nil => rfl
  | cons hr htail ih =>
    rename_i pe e l1 l2
    have hne : pe.1.isEmpty = false := by
      rw [hr.1]
      exact pathKey_isEmpty_false _
    simp [List.filter_cons, hne, ih]

/-- C6 (amended): provided the plan's entries carry pairwise-distinct
(name, parent path) pairs — the lock is keyed by install path, and the
counterexample shows a later entry of a duplicated path overwrites the
earlier one — with nonempty parent paths, every declared name present
as a parentless entry, and metadata available for every entry, the
round trip encode-then-decode with the same declared dependencies
reproduces the plan exactly (hence the same set of
(name, version, parentPath) triples, order-independent). -/
theorem C6_lock_roundtrip (plan : List DependencyInstallation)
    (cache : List (String × PackageMetadata)) (topLevel : List (String × VRange))
    (integ : String → Version → String)
    (hnp : (plan.map (fun e => (e.name, e.parentDirectory))).Nodup)
    (hpar : ∀ e ∈ plan, e.parentDirectory ≠ some ([] : ParentPath))
    (hdecl : ∀ nr ∈ topLevel, ∃ e ∈ plan, e.name = nr.1 ∧ e.parentDirectory = none)
    (hmeta : ∀ e ∈ plan,
      ((alookup cache e.name).bind fun m => alookup m.versions e.version).isSome = true) :
    lockRoundTrip plan cache topLevel integ = .ok plan := by
  have hmapeq : plan.map pathKey
      = (plan.map fun e => (e.name, e.parentDirectory)).map keyOfPair := by
    rw [List.map_map]
    exact List.map_congr_left fun e _ => pathKey_eq_keyOfPair e
  have hkeys : (plan.map pathKey).Nodup := by
    rw [hmapeq]
    refine hnp.map_on ?_
    intro x hx y hy hxy
    obtain ⟨ex, hex, hfx⟩ := List.mem_map.mp hx
    obtain ⟨ey, hey, hfy⟩ := List.mem_map.mp hy
    refine keyOfPair_inj ?_ ?_ hxy
    · rw [← hfx]
      exact hpar ex hex
    · rw [← hfy]
      exact hpar ey hey
  have hfresh : ∀ e ∈ plan,
      alookup [(([] : ParentPath),
        ({ name := some "my-project", version := ⟨1, 0, 0⟩,
           dependencies := some (resolvedTopLevelDeps topLevel plan) } :
            PackageLockEntry))] (pathKey e) = none := by
    intro e he
    simp [alookup, pathKey_ne_nil e]
  obtain ⟨entries, hloop, hfa⟩ :=
    lockPackagesLoop_spec cache integ plan _ hmeta hfresh hkeys
  unfold lockRoundTrip generatePackageLock
  simp only [hloop]
  unfold buildInstallationPlanFromLock
  simp only [List.singleton_append]
  have hvalid : topLevel.all
      (fun nr => (alookup (resolvedTopLevelDeps topLevel plan) nr.1).isSome) = true := by
    rw [List.all_eq_true]
    intro nr hnr
    refine resolvedTop_isSome plan [] nr.1 (Or.inr ⟨?_, ?_⟩)
    · exact hdecl nr hnr
    · obtain ⟨n, r⟩ := nr
      exact alookup_isSome_of_mem hnr
  rw [show alookup ((([] : ParentPath),
        ({ name := some "my-project", version := ⟨1, 0, 0⟩,
           dependencies := some (resolvedTopLevelDeps topLevel plan) } :
            PackageLockEntry)) :: entries) ([] : ParentPath)
      = some { name := some "my-project", version := ⟨1, 0, 0⟩,
               dependencies := some (resolvedTopLevelDeps topLevel plan) } from rfl]
  simp only
  rw [hvalid]
  simp only [if_true]
  rw [List.filter_cons]
  simp only [List.isEmpty_nil, Bool.not_true, Bool.false_eq_true, if_false]
  rw [decode_entries_filter hfa, decode_entries_map hfa hpar]

/-- C6 (counterexample).  On the pipeline-produced `plan2`, whose two
parentless `shared` entries share the install path
`node_modules/shared`, the later lock record overwrites the earlier:
decoding the encoded lock drops the (shared, 1.0.0, root) triple, so
the round trip does not preserve the set of triples. -/
theorem C6_counterexample :
    lockRoundTrip plan2 cache2 top2 noIntegrity =
        .ok [⟨"shared", ⟨2, 0, 0⟩, none⟩, ⟨"consumer", ⟨1, 0, 0⟩, none⟩] ∧
      (⟨"shared", ⟨1, 0, 0⟩, none⟩ : DependencyInstallation) ∈ plan2 ∧
      (⟨"shared", ⟨1, 0, 0⟩, none⟩ : DependencyInstallation) ∉
        [(⟨"shared", ⟨2, 0, 0⟩, none⟩ : DependencyInstallation),
         ⟨"consumer", ⟨1, 0, 0⟩, none⟩] := by decide

/-- C6 (witness): the two-entry plan `a@1.0.0` at root with `b@1.2.0`
nested under it round-trips exactly. -/
theorem C6_witness : lockRoundTrip planG cacheG topG noIntegrity = .ok planG :=
  C6_lock_roundtrip planG cacheG topG noIntegrity (by decide) (by decide) (by decide)
    (by decide)

end PkgMgr
